import Mathlib

/-!
# Verification of the reactive notebook execution engine

Shallow embedding of the dependency-analysis, dependency-graph, scheduler,
kernel and executor components of the notebook backend, together with proofs
and refutations of the specification claims.

Cell identifiers and variable names are strings, as in the source.
-/

namespace Notebook

abbrev Vtx := String

/-- Directed edges as an ordered list of pairs, mirroring the insertion
order of `networkx.DiGraph` adjacency (an edge `(a, b)` means `a → b`,
"b reads a name that a writes"). -/
abbrev Edges := List (Vtx × Vtx)

/-- The edge relation of an edge list. -/
def EdgeRel (E : Edges) (a b : Vtx) : Prop := (a, b) ∈ E

instance (E : Edges) : DecidableRel (EdgeRel E) := fun _ _ => by
  unfold EdgeRel; infer_instance

/-! ## Executable reachability (models `networkx.has_path` / `descendants` /
`ancestors`), with soundness and completeness proofs. -/

/-- Append an element to an accumulator unless already present. -/
def addNew (a : List Vtx) (x : Vtx) : List Vtx :=
  if x ∈ a then a else a ++ [x]

/-- Append all elements of `xs` not already present, keeping order. -/
def addAll (a : List Vtx) (xs : List Vtx) : List Vtx :=
  xs.foldl addNew a

theorem addAll_nil (a : List Vtx) : addAll a [] = a := rfl

theorem addAll_cons (a : List Vtx) (x : Vtx) (xs : List Vtx) :
    addAll a (x :: xs) = addAll (addNew a x) xs := rfl

theorem addAll_prefix (a xs) : ∃ t, addAll a xs = a ++ t := by
  induction xs generalizing a with
  | nil => exact ⟨[], by simp [addAll_nil]⟩
  | cons x xs ih =>
    rw [addAll_cons]
    unfold addNew
    by_cases h : x ∈ a
    · rw [if_pos h]; exact ih a
    · rw [if_neg h]
      obtain ⟨t, ht⟩ := ih (a ++ [x])
      exact ⟨x :: t, by simp [ht]⟩

theorem subset_addAll (a xs) : a ⊆ addAll a xs := by
  obtain ⟨t, ht⟩ := addAll_prefix a xs
  rw [ht]; exact List.subset_append_left a t

theorem mem_addAll {a xs y} : y ∈ addAll a xs ↔ y ∈ a ∨ y ∈ xs := by
  induction xs generalizing a with
  | nil => simp [addAll_nil]
  | cons x xs ih =>
    rw [addAll_cons]
    unfold addNew
    by_cases h : x ∈ a
    · rw [if_pos h, ih]
      constructor
      · rintro (hy | hy)
        · exact Or.inl hy
        · exact Or.inr (List.mem_cons_of_mem _ hy)
      · rintro (hy | hy)
        · exact Or.inl hy
        · rcases List.mem_cons.mp hy with rfl | hy
          · exact Or.inl h
          · exact Or.inr hy
    · rw [if_neg h, ih]
      simp only [List.mem_append, List.mem_singleton, List.mem_cons]
      tauto

theorem mem_of_mem_addAll_arg {a xs y} (h : y ∈ xs) : y ∈ addAll a xs :=
  mem_addAll.mpr (Or.inr h)

theorem addAll_nodup {a xs} (h : a.Nodup) : (addAll a xs).Nodup := by
  induction xs generalizing a with
  | nil => exact h
  | cons x xs ih =>
    rw [addAll_cons]
    unfold addNew
    by_cases hx : x ∈ a
    · rw [if_pos hx]; exact ih h
    · rw [if_neg hx]
      exact ih (by simp [List.nodup_append, h, hx])

/-- Direct successors of any vertex in `acc` along `E`. -/
def nexts (E : Edges) (acc : List Vtx) : List Vtx :=
  (E.filter (fun e => decide (e.1 ∈ acc))).map Prod.snd

theorem mem_nexts {E acc y} :
    y ∈ nexts E acc ↔ ∃ u, u ∈ acc ∧ (u, y) ∈ E := by
  unfold nexts
  simp only [List.mem_map, List.mem_filter, decide_eq_true_eq]
  constructor
  · rintro ⟨⟨u, v⟩, ⟨he, hu⟩, rfl⟩
    exact ⟨u, hu, he⟩
  · rintro ⟨u, hu, he⟩
    exact ⟨(u, y), ⟨he, hu⟩, rfl⟩

/-- One breadth-first step. -/
def reachStep (E : Edges) (acc : List Vtx) : List Vtx :=
  addAll acc (nexts E acc)

theorem mem_reachStep {E acc y} :
    y ∈ reachStep E acc ↔ y ∈ acc ∨ ∃ u, u ∈ acc ∧ (u, y) ∈ E := by
  unfold reachStep
  rw [mem_addAll, mem_nexts]

/-- A fixed point of `reachStep` is closed under the edge relation. -/
theorem reachStep_fix_closed {E acc} (h : reachStep E acc = acc)
    {u y : Vtx} (hu : u ∈ acc) (he : (u, y) ∈ E) : y ∈ acc := by
  have : y ∈ reachStep E acc :=
    mem_reachStep.mpr (Or.inr ⟨u, hu, he⟩)
  rwa [h] at this

/-- Iterate `reachStep` until a fixed point (or the fuel runs out). -/
def reachIter (E : Edges) : Nat → List Vtx → List Vtx
  | 0, acc => acc
  | n + 1, acc =>
    let acc' := reachStep E acc
    if acc' = acc then acc else reachIter E n acc'

theorem subset_reachIter (E n acc) : acc ⊆ reachIter E n acc := by
  induction n generalizing acc with
  | zero => exact fun _ h => h
  | succ n ih =>
    simp only [reachIter]
    by_cases h : reachStep E acc = acc
    · rw [if_pos h]; exact fun _ hx => hx
    · rw [if_neg h]
      exact (subset_addAll acc (nexts E acc)).trans (ih _)

/-- Generic invariant preservation for the BFS loop. -/
theorem reachIter_invariant {R : Vtx → Prop} {E : Edges}
    (hstep : ∀ u y, R u → (u, y) ∈ E → R y) :
    ∀ n acc, (∀ x ∈ acc, R x) → ∀ x ∈ reachIter E n acc, R x := by
  intro n
  induction n with
  | zero => intro acc hacc x hx; exact hacc x hx
  | succ n ih =>
    intro acc hacc x hx
    simp only [reachIter] at hx
    by_cases h : reachStep E acc = acc
    · rw [if_pos h] at hx; exact hacc x hx
    · rw [if_neg h] at hx
      refine ih _ ?_ x hx
      intro z hz
      rcases mem_reachStep.mp hz with hz | ⟨u, hu, he⟩
      · exact hacc z hz
      · exact hstep u z (hacc u hu) he

theorem reachIter_nodup {E n acc} (h : acc.Nodup) : (reachIter E n acc).Nodup := by
  induction n generalizing acc with
  | zero => exact h
  | succ n ih =>
    simp only [reachIter]
    by_cases hfix : reachStep E acc = acc
    · rw [if_pos hfix]; exact h
    · rw [if_neg hfix]; exact ih (addAll_nodup h)

theorem reachIter_subset_of_bound {E : Edges} {B : List Vtx}
    (hB : ∀ y ∈ E.map Prod.snd, y ∈ B) :
    ∀ n acc, acc ⊆ B → reachIter E n acc ⊆ B := by
  intro n
  induction n with
  | zero => intro acc hacc; exact hacc
  | succ n ih =>
    intro acc hacc
    simp only [reachIter]
    by_cases hfix : reachStep E acc = acc
    · rw [if_pos hfix]; exact hacc
    · rw [if_neg hfix]
      refine ih _ ?_
      intro z hz
      rcases mem_reachStep.mp hz with hz | ⟨u, _, he⟩
      · exact hacc hz
      · exact hB z (List.mem_map.mpr ⟨(u, z), he, rfl⟩)

/-- With enough fuel the BFS reaches a fixed point. -/
theorem reachIter_reaches_fix {E : Edges} {B : List Vtx}
    (hB : ∀ y ∈ E.map Prod.snd, y ∈ B) :
    ∀ n acc, acc.Nodup → acc ⊆ B → B.length < acc.length + n →
      reachStep E (reachIter E n acc) = reachIter E n acc := by
  intro n
  induction n with
  | zero =>
    intro acc hnd hsub hlen
    exfalso
    have : acc.length ≤ B.length := (hnd.subperm hsub).length_le
    omega
  | succ n ih =>
    intro acc hnd hsub hlen
    simp only [reachIter]
    by_cases hfix : reachStep E acc = acc
    · rw [if_pos hfix]; exact hfix
    · rw [if_neg hfix]
      obtain ⟨t, ht⟩ := addAll_prefix acc (nexts E acc)
      have hne : t ≠ [] := by
        intro h0
        apply hfix
        unfold reachStep
        rw [ht, h0, List.append_nil]
      have hlen' : acc.length + 1 ≤ (reachStep E acc).length := by
        unfold reachStep
        rw [ht, List.length_append]
        have : 1 ≤ t.length := List.length_pos.mpr hne
        omega
      refine ih (reachStep E acc) (addAll_nodup hnd) ?_ (by omega)
      intro z hz
      rcases mem_reachStep.mp hz with hz | ⟨u, _, he⟩
      · exact hsub hz
      · exact hB z (List.mem_map.mpr ⟨(u, z), he, rfl⟩)

/-- All vertices reachable from `s` along `E` (reflexively), computed by BFS
with sufficient fuel; models `networkx` reachability. -/
def reachableFrom (E : Edges) (s : Vtx) : List Vtx :=
  reachIter E (E.length + 1) [s]

theorem reachableFrom_fix (E : Edges) (s : Vtx) :
    reachStep E (reachableFrom E s) = reachableFrom E s := by
  have hB : ∀ y ∈ E.map Prod.snd, y ∈ s :: E.map Prod.snd := by
    intro y hy; exact List.mem_cons_of_mem _ hy
  refine reachIter_reaches_fix hB (E.length + 1) [s] (by simp) ?_ ?_
  · intro z hz
    rcases List.mem_singleton.mp hz with rfl
    exact List.mem_cons_self _ _
  · simp

theorem mem_reachableFrom {E : Edges} {s x : Vtx} :
    x ∈ reachableFrom E s ↔ Relation.ReflTransGen (EdgeRel E) s x := by
  constructor
  · intro hx
    refine reachIter_invariant (R := fun v => Relation.ReflTransGen (EdgeRel E) s v)
      ?_ _ _ ?_ x hx
    · intro u y hu he
      exact hu.tail he
    · intro z hz
      rcases List.mem_singleton.mp hz with rfl
      exact Relation.ReflTransGen.refl
  · intro hpath
    induction hpath with
    | refl =>
      exact subset_reachIter E (E.length + 1) [s] (List.mem_singleton.mpr rfl)
    | tail _ he ih =>
      exact reachStep_fix_closed (reachableFrom_fix E s) ih he

/-- Executable path test; models `nx.has_path(G, a, b)`. -/
def hasPathB (E : Edges) (a b : Vtx) : Bool := b ∈ reachableFrom E a

theorem hasPathB_iff {E : Edges} {a b : Vtx} :
    hasPathB E a b = true ↔ Relation.ReflTransGen (EdgeRel E) a b := by
  unfold hasPathB
  rw [decide_eq_true_eq, mem_reachableFrom]

/-! ## Acyclicity -/

/-- A graph (edge list) is acyclic: no vertex lies on a nonempty cycle. -/
def Acyclic (E : Edges) : Prop := ∀ c, ¬ Relation.TransGen (EdgeRel E) c c

theorem acyclic_of_subset {E E' : Edges}
    (hsub : ∀ e, e ∈ E' → e ∈ E) (h : Acyclic E) : Acyclic E' := by
  intro c hc
  exact h c (hc.mono (fun a b hab => hsub (a, b) hab))

theorem acyclic_nil : Acyclic [] := by
  intro c hc
  obtain ⟨d, _, he⟩ := Relation.TransGen.tail'_iff.mp hc
  exact absurd he (List.not_mem_nil _)

/-- Any walk in a graph extended by one edge `(a, b)` either avoids the new
edge or decomposes across it. -/
theorem transGen_extend {E E' : Edges} {a b : Vtx}
    (hE' : ∀ x y, (x, y) ∈ E' ↔ (x, y) ∈ E ∨ (x = a ∧ y = b)) :
    ∀ {x y}, Relation.TransGen (EdgeRel E') x y →
      Relation.TransGen (EdgeRel E) x y ∨
        (Relation.ReflTransGen (EdgeRel E) x a ∧
         Relation.ReflTransGen (EdgeRel E) b y) := by
  intro x y h
  induction h with
  | single he =>
    rcases (hE' _ _).mp he with he | ⟨rfl, rfl⟩
    · exact Or.inl (Relation.TransGen.single he)
    · exact Or.inr ⟨Relation.ReflTransGen.refl, Relation.ReflTransGen.refl⟩
  | tail _ he ih =>
    rcases (hE' _ _).mp he with he | ⟨rfl, rfl⟩
    · rcases ih with ih | ⟨ih₁, ih₂⟩
      · exact Or.inl (ih.tail he)
      · exact Or.inr ⟨ih₁, ih₂.tail he⟩
    · rcases ih with ih | ⟨ih₁, _⟩
      · exact Or.inr ⟨ih.to_reflTransGen, Relation.ReflTransGen.refl⟩
      · exact Or.inr ⟨ih₁, Relation.ReflTransGen.refl⟩

/-- Adding an edge whose reverse path does not exist preserves acyclicity. -/
theorem acyclic_extend {E E' : Edges} {a b : Vtx}
    (hE' : ∀ x y, (x, y) ∈ E' ↔ (x, y) ∈ E ∨ (x = a ∧ y = b))
    (hacy : Acyclic E)
    (hnopath : ¬ Relation.ReflTransGen (EdgeRel E) b a) : Acyclic E' := by
  intro c hc
  rcases transGen_extend hE' hc with hc | ⟨h₁, h₂⟩
  · exact hacy c hc
  · exact hnopath (h₂.trans h₁)

/-- Executable acyclicity check: no edge has a path from head back to tail. -/
def acyclicB (E : Edges) : Bool :=
  E.all (fun e => ! hasPathB E e.2 e.1)

theorem acyclicB_iff {E : Edges} : acyclicB E = true ↔ Acyclic E := by
  unfold acyclicB
  rw [List.all_eq_true]
  constructor
  · intro h c hc
    obtain ⟨d, hpath, he⟩ := Relation.TransGen.tail'_iff.mp hc
    have h1 := h (d, c) he
    simp only [Bool.not_eq_true'] at h1
    have h2 : hasPathB E c d = true := hasPathB_iff.mpr hpath
    rw [h1] at h2
    exact Bool.false_ne_true h2
  · intro h e he
    simp only [Bool.not_eq_true']
    by_contra hne
    have htrue : hasPathB E e.2 e.1 = true := by
      cases hb : hasPathB E e.2 e.1
      · exact absurd hb hne
      · rfl
    have hpath : Relation.ReflTransGen (EdgeRel E) e.2 e.1 :=
      hasPathB_iff.mp htrue
    exact h e.1 (Relation.TransGen.head' he hpath)

/-! ## Association lists (model Python `dict` with insertion order) -/

/-- Lookup in an association list (`dict.get`). -/
def lookup? {β : Type} (m : List (Vtx × β)) (k : Vtx) : Option β :=
  (m.find? (fun p => p.1 == k)).map Prod.snd

/-- `dict[k] = v`: overwrite in place if the key exists, else append. -/
def setKey {β : Type} : List (Vtx × β) → Vtx → β → List (Vtx × β)
  | [], k, v => [(k, v)]
  | p :: t, k, v => if p.1 = k then (k, v) :: t else p :: setKey t k v

/-- `del dict[k]`: drop the entry for `k` (no-op when absent). -/
def delKey {β : Type} : List (Vtx × β) → Vtx → List (Vtx × β)
  | [], _ => []
  | p :: t, k => if p.1 = k then t else p :: delKey t k

theorem lookup?_setKey_self {β : Type} (m : List (Vtx × β)) (k : Vtx) (v : β) :
    lookup? (setKey m k v) k = some v := by
  induction m with
  | nil => simp [setKey, lookup?, List.find?]
  | cons p t ih =>
    by_cases h : p.1 = k
    · simp [setKey, h, lookup?, List.find?]
    · simp only [setKey, if_neg h]
      simp only [lookup?, List.find?] at ih ⊢
      have hb : (p.1 == k) = false := beq_false_of_ne h
      rw [hb]
      exact ih

theorem lookup?_setKey_ne {β : Type} (m : List (Vtx × β)) {k k' : Vtx} (v : β)
    (h : k' ≠ k) : lookup? (setKey m k v) k' = lookup? m k' := by
  induction m with
  | nil =>
    simp [setKey, lookup?, List.find?, beq_false_of_ne (Ne.symm h)]
  | cons p t ih =>
    by_cases hp : p.1 = k
    · subst hp
      simp [setKey, lookup?, List.find?, beq_false_of_ne (Ne.symm h)]
    · simp only [setKey, if_neg hp]
      simp only [lookup?, List.find?] at ih ⊢
      cases hbeq : (p.1 == k')
      · exact ih
      · rfl

/-! ## DependencyGraph (src/backend/app/core/graph.py) -/

/-- State of `DependencyGraph`: the `networkx.DiGraph` (nodes and edges, in
insertion order) and the auxiliary indexes `_cell_writes`, `_cell_reads`,
`_var_writers`. -/
structure DependencyGraph where
  nodes : List Vtx
  edges : Edges
  cellWrites : List (Vtx × List Vtx)
  cellReads : List (Vtx × List Vtx)
  varWriters : List (Vtx × Vtx)
deriving DecidableEq, Repr

/-- `DependencyGraph.__init__`. -/
def emptyGraph : DependencyGraph :=
  { nodes := [], edges := [], cellWrites := [], cellReads := [], varWriters := [] }

def hasNode (g : DependencyGraph) (c : Vtx) : Bool := c ∈ g.nodes

/-- `nx.DiGraph.add_node` (idempotent). -/
def addNode (g : DependencyGraph) (c : Vtx) : DependencyGraph :=
  if c ∈ g.nodes then g else { g with nodes := g.nodes ++ [c] }

def hasEdge (g : DependencyGraph) (a b : Vtx) : Bool := (a, b) ∈ g.edges

/-- Append an edge if not already present (adjacency-set semantics). -/
def addEdgeOnly (g : DependencyGraph) (a b : Vtx) : DependencyGraph :=
  if (a, b) ∈ g.edges then g else { g with edges := g.edges ++ [(a, b)] }

/-- `nx.DiGraph.add_edge`: adds missing endpoints as nodes, then the edge
(idempotent). -/
def addEdge (g : DependencyGraph) (a b : Vtx) : DependencyGraph :=
  addEdgeOnly (addNode (addNode g a) b) a b

/-- `nx.DiGraph.remove_edge`. -/
def removeEdge (g : DependencyGraph) (a b : Vtx) : DependencyGraph :=
  { g with edges := g.edges.filter (fun e => ¬ (e.1 = a ∧ e.2 = b)) }

/-- `nx.DiGraph.remove_node`: drops the node and all incident edges. -/
def removeNode (g : DependencyGraph) (c : Vtx) : DependencyGraph :=
  { g with nodes := g.nodes.erase c,
           edges := g.edges.filter (fun e => ¬ (e.1 = c ∨ e.2 = c)) }

/-- `DependencyGraph._would_edge_create_cycle`. -/
def wouldEdgeCreateCycle (g : DependencyGraph) (fromCell toCell : Vtx) : Bool :=
  if fromCell = toCell then true
  else if ¬ (toCell ∈ g.nodes) then false
  else if ¬ (fromCell ∈ g.nodes) then false
  else hasPathB g.edges toCell fromCell

/-- `_cell_reads.get(other_cell, set())`. -/
def readsOf (g : DependencyGraph) (c : Vtx) : List Vtx :=
  (lookup? g.cellReads c).getD []

/-- `_cell_writes.get(cell_id, set())`. -/
def writesOf (g : DependencyGraph) (c : Vtx) : List Vtx :=
  (lookup? g.cellWrites c).getD []

/-- The `new_parent_edges` loop of `update_cell`: for every read variable
with a designated writer other than the cell itself, edge `writer → cell`. -/
def newParentEdges (g : DependencyGraph) (cell : Vtx) (reads : List Vtx) : Edges :=
  reads.filterMap (fun v =>
    match lookup? g.varWriters v with
    | some w => if w ≠ cell then some (w, cell) else none
    | none => none)

/-- The `new_child_edges` loop of `update_cell`: for every written variable
and every other registered node reading it, edge `cell → other`. -/
def newChildEdges (g : DependencyGraph) (cell : Vtx) (writes : List Vtx) : Edges :=
  writes.flatMap (fun v =>
    g.nodes.filterMap (fun other =>
      if other = cell then none
      else if v ∈ readsOf g other then some (cell, other) else none))

/-- Outcome of the edge-simulation loop: either all candidate edges are safe
(returning the graph with the temporary edges added and the list of
temporaries), or a cycle was detected (`raise` with the graph as mutated so
far — the temporaries added before the failing edge are still present). -/
inductive SimOutcome where
  | ok (g : DependencyGraph) (temp : Edges)
  | cycle (g : DependencyGraph)
deriving DecidableEq, Repr

/-- The `for from_cell, to_cell in all_new_edges` check loop of
`update_cell` (graph.py lines 88–102). -/
def simulateEdges (g : DependencyGraph) : Edges → Edges → SimOutcome
  | [], temp => .ok g temp
  | (a, b) :: rest, temp =>
    if wouldEdgeCreateCycle g a b then .cycle g
    else simulateEdges (addEdge g a b) rest (temp ++ [(a, b)])

/-- Removal of the temporary edges after a successful simulation
(graph.py lines 105–107). -/
def removeTempEdges (g : DependencyGraph) (temp : Edges) : DependencyGraph :=
  temp.foldl (fun g e => if hasEdge g e.1 e.2 then removeEdge g e.1 e.2 else g) g

/-- The `# Clear old variable mappings` loop of `update_cell` /
`remove_cell`: delete each `var → cell` entry for the cell's old writes. -/
def clearWriters (m : List (Vtx × Vtx)) (cell : Vtx) (oldWrites : List Vtx) :
    List (Vtx × Vtx) :=
  oldWrites.foldl (fun m v => if lookup? m v = some cell then delKey m v else m) m

/-- The `for var in writes: self._var_writers[var] = cell_id` loop. -/
def registerWriters (m : List (Vtx × Vtx)) (cell : Vtx) (writes : List Vtx) :
    List (Vtx × Vtx) :=
  writes.foldl (fun m v => setKey m v cell) m

/-- Result of `update_cell`: normal return, or `CycleDetectedError` carrying
the state the graph was left in by the raising call. -/
inductive UpdateResult where
  | ok (g : DependencyGraph)
  | cycleDetected (g : DependencyGraph)
deriving DecidableEq, Repr

/-- The graph state after an `update_cell` call, whether it returned
normally or raised `CycleDetectedError`. -/
def UpdateResult.graph : UpdateResult → DependencyGraph
  | .ok g => g
  | .cycleDetected g => g

def UpdateResult.isCycle : UpdateResult → Bool
  | .ok _ => false
  | .cycleDetected _ => true

/-- The `# Clear old variable mappings` block of `update_cell` /
`remove_cell`, acting on the whole graph state. -/
def clearOldWriterIndex (g : DependencyGraph) (cell : Vtx) : DependencyGraph :=
  match lookup? g.cellWrites cell with
  | some oldWrites =>
    { g with varWriters := clearWriters g.varWriters cell oldWrites }
  | none => g

/-- The mutation phase of `update_cell` after a successful simulation
(graph.py lines 104–136): drop the temporary edges, remove the old node,
refresh the indexes, re-add the node and all the (known safe) edges. -/
def applyUpdate (gSim : DependencyGraph) (temp : Edges) (cell : Vtx)
    (reads writes : List Vtx) (npe nce : Edges) : DependencyGraph :=
  let g1 := removeTempEdges gSim temp
  let g2 := if hasNode g1 cell then removeNode g1 cell else g1
  -- clear old variable mappings
  let g3 := clearOldWriterIndex g2 cell
  -- register new writes and reads
  let g4 := { g3 with cellWrites := setKey g3.cellWrites cell writes,
                      cellReads := setKey g3.cellReads cell reads }
  let g5 := { g4 with varWriters := registerWriters g4.varWriters cell writes }
  -- add node and all edges (known safe)
  let g6 := addNode g5 cell
  let g7 := npe.foldl (fun g e => addEdge g e.1 e.2) g6
  nce.foldl (fun g e => addEdge g e.1 e.2) g7

/-- `DependencyGraph.update_cell(cell_id, reads, writes)`.  `reads` and
`writes` are the Python sets passed by the callers, as lists. -/
def updateCell (g : DependencyGraph) (cell : Vtx) (reads writes : List Vtx) :
    UpdateResult :=
  let npe := newParentEdges g cell reads
  let nce := newChildEdges g cell writes
  match simulateEdges g (npe ++ nce) [] with
  | .cycle g' => .cycleDetected g'
  | .ok g' temp => .ok (applyUpdate g' temp cell reads writes npe nce)

/-- `DependencyGraph.remove_cell(cell_id)`. -/
def removeCell (g : DependencyGraph) (cell : Vtx) : DependencyGraph :=
  let g1 := if hasNode g cell then removeNode g cell else g
  let g2 :=
    match lookup? g1.cellWrites cell with
    | some oldWrites =>
      let gc := { g1 with varWriters := clearWriters g1.varWriters cell oldWrites }
      { gc with cellWrites := delKey gc.cellWrites cell }
    | none => g1
  { g2 with cellReads := delKey g2.cellReads cell }

/-! ## Structural lemmas about the graph primitives -/

theorem addNode_edges (g : DependencyGraph) (c : Vtx) :
    (addNode g c).edges = g.edges := by
  unfold addNode; split <;> rfl

theorem addNode_varWriters (g : DependencyGraph) (c : Vtx) :
    (addNode g c).varWriters = g.varWriters := by
  unfold addNode; split <;> rfl

theorem mem_nodes_addNode {g : DependencyGraph} {c x : Vtx} (h : x ∈ g.nodes) :
    x ∈ (addNode g c).nodes := by
  unfold addNode; split
  · exact h
  · exact List.mem_append_left _ h

theorem self_mem_nodes_addNode (g : DependencyGraph) (c : Vtx) :
    c ∈ (addNode g c).nodes := by
  unfold addNode; split
  · assumption
  · simp

theorem addEdgeOnly_nodes (g : DependencyGraph) (a b : Vtx) :
    (addEdgeOnly g a b).nodes = g.nodes := by
  unfold addEdgeOnly; split <;> rfl

theorem addEdgeOnly_varWriters (g : DependencyGraph) (a b : Vtx) :
    (addEdgeOnly g a b).varWriters = g.varWriters := by
  unfold addEdgeOnly; split <;> rfl

theorem mem_edges_addEdgeOnly {g : DependencyGraph} {a b : Vtx} {e : Vtx × Vtx} :
    e ∈ (addEdgeOnly g a b).edges ↔ e ∈ g.edges ∨ e = (a, b) := by
  unfold addEdgeOnly
  split
  · rename_i h
    constructor
    · exact Or.inl
    · rintro (he | rfl)
      · exact he
      · exact h
  · simp

theorem mem_edges_addEdge {g : DependencyGraph} {a b : Vtx} {e : Vtx × Vtx} :
    e ∈ (addEdge g a b).edges ↔ e ∈ g.edges ∨ e = (a, b) := by
  unfold addEdge
  rw [mem_edges_addEdgeOnly, addNode_edges, addNode_edges]

theorem addEdge_varWriters (g : DependencyGraph) (a b : Vtx) :
    (addEdge g a b).varWriters = g.varWriters := by
  unfold addEdge
  rw [addEdgeOnly_varWriters, addNode_varWriters, addNode_varWriters]

theorem mem_nodes_addEdge {g : DependencyGraph} {a b x : Vtx} (h : x ∈ g.nodes) :
    x ∈ (addEdge g a b).nodes := by
  unfold addEdge
  rw [addEdgeOnly_nodes]
  exact mem_nodes_addNode (mem_nodes_addNode h)

theorem addEdge_endpoints_mem (g : DependencyGraph) (a b : Vtx) :
    a ∈ (addEdge g a b).nodes ∧ b ∈ (addEdge g a b).nodes := by
  unfold addEdge
  rw [addEdgeOnly_nodes]
  exact ⟨mem_nodes_addNode (self_mem_nodes_addNode g a),
         self_mem_nodes_addNode (addNode g a) b⟩

/-- Edges always connect registered nodes (a `networkx` invariant). -/
def NodesClosed (g : DependencyGraph) : Prop :=
  ∀ e ∈ g.edges, e.1 ∈ g.nodes ∧ e.2 ∈ g.nodes

/-- The structural invariant maintained by `DependencyGraph`. -/
def GoodGraph (g : DependencyGraph) : Prop :=
  Acyclic g.edges ∧ NodesClosed g

theorem goodGraph_empty : GoodGraph emptyGraph :=
  ⟨acyclic_nil, fun e he => absurd he (List.not_mem_nil e)⟩

theorem nodesClosed_addEdge {g : DependencyGraph} (h : NodesClosed g)
    (a b : Vtx) : NodesClosed (addEdge g a b) := by
  intro e he
  rcases mem_edges_addEdge.mp he with he | rfl
  · obtain ⟨h1, h2⟩ := h e he
    exact ⟨mem_nodes_addEdge h1, mem_nodes_addEdge h2⟩
  · exact addEdge_endpoints_mem g a b

/-- A safe edge (per `_would_edge_create_cycle`) keeps the graph acyclic. -/
theorem goodGraph_addEdge_of_safe {g : DependencyGraph} {a b : Vtx}
    (hg : GoodGraph g) (hsafe : wouldEdgeCreateCycle g a b = false) :
    GoodGraph (addEdge g a b) := by
  obtain ⟨hacy, hclosed⟩ := hg
  refine ⟨?_, nodesClosed_addEdge hclosed a b⟩
  unfold wouldEdgeCreateCycle at hsafe
  split at hsafe
  · exact absurd hsafe (by simp)
  · rename_i hab
    have hnopath : ¬ Relation.ReflTransGen (EdgeRel g.edges) b a := by
      split at hsafe
      · rename_i hb
        intro hpath
        rcases Relation.ReflTransGen.cases_head hpath with heq | ⟨c, he, _⟩
        · exact hab heq.symm
        · exact hb ((hclosed (b, c) he).1)
      · split at hsafe
        · rename_i ha
          intro hpath
          rcases Relation.ReflTransGen.cases_tail hpath with heq | ⟨c, _, he⟩
          · exact hab heq
          · exact ha ((hclosed (c, a) he).2)
        · intro hpath
          rw [hasPathB_iff.mpr hpath] at hsafe
          exact absurd hsafe (by simp)
    refine acyclic_extend (fun x y => ?_) hacy hnopath
    rw [mem_edges_addEdge, Prod.mk.injEq]

/-- The graph carried by a simulation outcome. -/
def SimOutcome.graph : SimOutcome → DependencyGraph
  | .ok g _ => g
  | .cycle g => g

/-- Both outcomes of the simulation loop preserve the structural invariant. -/
theorem simulateEdges_good :
    ∀ (l : Edges) (g : DependencyGraph) (temp : Edges), GoodGraph g →
      GoodGraph (simulateEdges g l temp).graph := by
  intro l
  induction l with
  | nil => intro g temp hg; exact hg
  | cons e rest ih =>
    intro g temp hg
    obtain ⟨a, b⟩ := e
    simp only [simulateEdges]
    cases hc : wouldEdgeCreateCycle g a b
    · rw [if_neg (by simp [hc])]
      exact ih _ _ (goodGraph_addEdge_of_safe hg hc)
    · rw [if_pos (by simp [hc])]
      exact hg

/-- The simulation result only grows the edge set. -/
theorem simulateEdges_edges_grow :
    ∀ (l : Edges) (g : DependencyGraph) (temp : Edges) {g' : DependencyGraph}
      {temp' : Edges}, simulateEdges g l temp = .ok g' temp' →
      ∀ e ∈ g.edges, e ∈ g'.edges := by
  intro l
  induction l with
  | nil =>
    intro g temp g' temp' h e he
    simp only [simulateEdges] at h
    cases h
    exact he
  | cons p rest ih =>
    intro g temp g' temp' h e he
    obtain ⟨a, b⟩ := p
    simp only [simulateEdges] at h
    split at h
    · exact absurd h (by simp)
    · exact ih _ _ h e (mem_edges_addEdge.mpr (Or.inl he))

/-- On success every candidate edge is present in the simulation result. -/
theorem simulateEdges_contains_candidates :
    ∀ (l : Edges) (g : DependencyGraph) (temp : Edges) {g' : DependencyGraph}
      {temp' : Edges}, simulateEdges g l temp = .ok g' temp' →
      ∀ e ∈ l, e ∈ g'.edges := by
  intro l
  induction l with
  | nil =>
    intro g temp g' temp' _ x hx
    exact absurd hx (List.not_mem_nil _)
  | cons p rest ih =>
    intro g temp g' temp' h x hx
    obtain ⟨a, b⟩ := p
    simp only [simulateEdges] at h
    split at h
    · exact absurd h (by simp)
    · rcases List.mem_cons.mp hx with rfl | hx
      · exact simulateEdges_edges_grow rest _ _ h (a, b)
          (mem_edges_addEdge.mpr (Or.inr rfl))
      · exact ih _ _ h x hx

/-! ## Preservation of the structural invariant by the graph operations -/

theorem removeEdge_nodes (g : DependencyGraph) (a b : Vtx) :
    (removeEdge g a b).nodes = g.nodes := rfl

theorem removeEdge_edges_sub {g : DependencyGraph} {a b : Vtx} {e : Vtx × Vtx}
    (h : e ∈ (removeEdge g a b).edges) : e ∈ g.edges :=
  (List.mem_filter.mp h).1

theorem removeTempEdges_cons (g : DependencyGraph) (p : Vtx × Vtx) (rest : Edges) :
    removeTempEdges g (p :: rest) =
      removeTempEdges (if hasEdge g p.1 p.2 then removeEdge g p.1 p.2 else g) rest := rfl

theorem removeTempEdges_nodes :
    ∀ (temp : Edges) (g : DependencyGraph), (removeTempEdges g temp).nodes = g.nodes := by
  intro temp
  induction temp with
  | nil => intro g; rfl
  | cons p rest ih =>
    intro g
    rw [removeTempEdges_cons, ih]
    split <;> rfl

theorem removeTempEdges_edges_sub :
    ∀ (temp : Edges) (g : DependencyGraph) {e : Vtx × Vtx},
      e ∈ (removeTempEdges g temp).edges → e ∈ g.edges := by
  intro temp
  induction temp with
  | nil => intro g e h; exact h
  | cons p rest ih =>
    intro g e h
    rw [removeTempEdges_cons] at h
    have h2 := ih _ h
    split at h2
    · exact removeEdge_edges_sub h2
    · exact h2

theorem removeTempEdges_cellWrites :
    ∀ (temp : Edges) (g : DependencyGraph),
      (removeTempEdges g temp).cellWrites = g.cellWrites := by
  intro temp
  induction temp with
  | nil => intro g; rfl
  | cons p rest ih =>
    intro g
    rw [removeTempEdges_cons, ih]
    split <;> rfl

theorem removeTempEdges_cellReads :
    ∀ (temp : Edges) (g : DependencyGraph),
      (removeTempEdges g temp).cellReads = g.cellReads := by
  intro temp
  induction temp with
  | nil => intro g; rfl
  | cons p rest ih =>
    intro g
    rw [removeTempEdges_cons, ih]
    split <;> rfl

theorem removeTempEdges_varWriters :
    ∀ (temp : Edges) (g : DependencyGraph),
      (removeTempEdges g temp).varWriters = g.varWriters := by
  intro temp
  induction temp with
  | nil => intro g; rfl
  | cons p rest ih =>
    intro g
    rw [removeTempEdges_cons, ih]
    split <;> rfl

theorem nodesClosed_removeTempEdges {g : DependencyGraph} (h : NodesClosed g)
    (temp : Edges) : NodesClosed (removeTempEdges g temp) := by
  intro e he
  rw [removeTempEdges_nodes]
  exact h e (removeTempEdges_edges_sub temp g he)

theorem removeNode_edges_sub {g : DependencyGraph} {c : Vtx} {e : Vtx × Vtx}
    (h : e ∈ (removeNode g c).edges) : e ∈ g.edges :=
  (List.mem_filter.mp h).1

theorem nodesClosed_removeNode {g : DependencyGraph} (h : NodesClosed g)
    (c : Vtx) : NodesClosed (removeNode g c) := by
  intro e he
  obtain ⟨hmem, hpred⟩ := List.mem_filter.mp he
  obtain ⟨h1, h2⟩ := h e hmem
  simp only [decide_eq_true_eq, not_or] at hpred
  obtain ⟨hne1, hne2⟩ := hpred
  exact ⟨(List.mem_erase_of_ne hne1).mpr h1, (List.mem_erase_of_ne hne2).mpr h2⟩

theorem clearOldWriterIndex_edges (g : DependencyGraph) (c : Vtx) :
    (clearOldWriterIndex g c).edges = g.edges := by
  unfold clearOldWriterIndex; split <;> rfl

theorem clearOldWriterIndex_nodes (g : DependencyGraph) (c : Vtx) :
    (clearOldWriterIndex g c).nodes = g.nodes := by
  unfold clearOldWriterIndex; split <;> rfl

theorem foldl_addEdge_edges_mono {e : Vtx × Vtx} :
    ∀ (l : Edges) (g : DependencyGraph), e ∈ g.edges →
      e ∈ (l.foldl (fun g p => addEdge g p.1 p.2) g).edges := by
  intro l
  induction l with
  | nil => intro g h; exact h
  | cons p rest ih =>
    intro g h
    exact ih _ (mem_edges_addEdge.mpr (Or.inl h))

theorem foldl_addEdge_mem_of_mem_list {e : Vtx × Vtx} :
    ∀ (l : Edges) (g : DependencyGraph), e ∈ l →
      e ∈ (l.foldl (fun g p => addEdge g p.1 p.2) g).edges := by
  intro l
  induction l with
  | nil => intro g h; exact absurd h (List.not_mem_nil _)
  | cons p rest ih =>
    intro g h
    rcases List.mem_cons.mp h with rfl | h
    · exact foldl_addEdge_edges_mono rest _
        (mem_edges_addEdge.mpr (Or.inr rfl))
    · exact ih _ h

theorem foldl_addEdge_edges_sub {e : Vtx × Vtx} :
    ∀ (l : Edges) (g : DependencyGraph),
      e ∈ (l.foldl (fun g p => addEdge g p.1 p.2) g).edges →
      e ∈ g.edges ∨ e ∈ l := by
  intro l
  induction l with
  | nil => intro g h; exact Or.inl h
  | cons p rest ih =>
    intro g h
    rcases ih _ h with h2 | h2
    · rcases mem_edges_addEdge.mp h2 with h3 | rfl
      · exact Or.inl h3
      · exact Or.inr (List.mem_cons_self _ _)
    · exact Or.inr (List.mem_cons_of_mem _ h2)

theorem foldl_addEdge_nodesClosed :
    ∀ (l : Edges) (g : DependencyGraph), NodesClosed g →
      NodesClosed (l.foldl (fun g p => addEdge g p.1 p.2) g) := by
  intro l
  induction l with
  | nil => intro g h; exact h
  | cons p rest ih =>
    intro g h
    exact ih _ (nodesClosed_addEdge h p.1 p.2)

theorem foldl_addEdge_varWriters :
    ∀ (l : Edges) (g : DependencyGraph),
      (l.foldl (fun g p => addEdge g p.1 p.2) g).varWriters = g.varWriters := by
  intro l
  induction l with
  | nil => intro g; rfl
  | cons p rest ih =>
    intro g
    rw [List.foldl_cons, ih, addEdge_varWriters]

theorem nodesClosed_addNode {g : DependencyGraph} (h : NodesClosed g) (c : Vtx) :
    NodesClosed (addNode g c) := by
  intro e he
  rw [addNode_edges] at he
  obtain ⟨h1, h2⟩ := h e he
  exact ⟨mem_nodes_addNode h1, mem_nodes_addNode h2⟩

/-- Every edge of the mutated graph was present in the simulation result or
is one of the candidate edges. -/
theorem applyUpdate_edges_sub {gSim : DependencyGraph} {temp : Edges}
    {cell : Vtx} {reads writes : List Vtx} {npe nce : Edges} {e : Vtx × Vtx}
    (h : e ∈ (applyUpdate gSim temp cell reads writes npe nce).edges) :
    e ∈ gSim.edges ∨ e ∈ npe ∨ e ∈ nce := by
  unfold applyUpdate at h
  rcases foldl_addEdge_edges_sub nce _ h with h | h
  · rcases foldl_addEdge_edges_sub npe _ h with h | h
    · rw [addNode_edges] at h
      have h4 : e ∈ (clearOldWriterIndex (if hasNode (removeTempEdges gSim temp) cell
          then removeNode (removeTempEdges gSim temp) cell
          else removeTempEdges gSim temp) cell).edges := h
      rw [clearOldWriterIndex_edges] at h4
      split at h4
      · exact Or.inl (removeTempEdges_edges_sub temp gSim (removeNode_edges_sub h4))
      · exact Or.inl (removeTempEdges_edges_sub temp gSim h4)
    · exact Or.inr (Or.inl h)
  · exact Or.inr (Or.inr h)

theorem nodesClosed_applyUpdate {gSim : DependencyGraph} {temp : Edges}
    {cell : Vtx} {reads writes : List Vtx} {npe nce : Edges}
    (h : NodesClosed gSim) :
    NodesClosed (applyUpdate gSim temp cell reads writes npe nce) := by
  unfold applyUpdate
  refine foldl_addEdge_nodesClosed nce _ (foldl_addEdge_nodesClosed npe _ ?_)
  refine nodesClosed_addNode ?_ cell
  have h1 : NodesClosed (removeTempEdges gSim temp) :=
    nodesClosed_removeTempEdges h temp
  have h2 : NodesClosed (if hasNode (removeTempEdges gSim temp) cell
      then removeNode (removeTempEdges gSim temp) cell
      else removeTempEdges gSim temp) := by
    split
    · exact nodesClosed_removeNode h1 cell
    · exact h1
  intro e he
  rw [clearOldWriterIndex_edges] at he
  rw [clearOldWriterIndex_nodes]
  exact h2 e he

/-- `update_cell` preserves the structural invariant whether it succeeds or
raises `CycleDetectedError`. -/
theorem updateCell_good {g : DependencyGraph} (hg : GoodGraph g)
    (cell : Vtx) (reads writes : List Vtx) :
    GoodGraph (updateCell g cell reads writes).graph := by
  have hsimGood := simulateEdges_good
    (newParentEdges g cell reads ++ newChildEdges g cell writes) g [] hg
  simp only [updateCell]
  cases hs : simulateEdges g
      (newParentEdges g cell reads ++ newChildEdges g cell writes) [] with
  | cycle g' =>
    rw [hs] at hsimGood
    exact hsimGood
  | ok g' temp =>
    rw [hs] at hsimGood
    obtain ⟨hacy, hclosed⟩ := hsimGood
    simp only [UpdateResult.graph]
    constructor
    · refine acyclic_of_subset (fun e he => ?_) hacy
      rcases applyUpdate_edges_sub he with h | h | h
      · exact h
      · exact simulateEdges_contains_candidates _ _ _ hs e
          (List.mem_append_left _ h)
      · exact simulateEdges_contains_candidates _ _ _ hs e
          (List.mem_append_right _ h)
    · exact nodesClosed_applyUpdate hclosed

/-- `remove_cell` preserves the structural invariant. -/
theorem removeCell_good {g : DependencyGraph} (hg : GoodGraph g) (cell : Vtx) :
    GoodGraph (removeCell g cell) := by
  obtain ⟨hacy, hclosed⟩ := hg
  have hg1 : GoodGraph (if hasNode g cell then removeNode g cell else g) := by
    split
    · exact ⟨acyclic_of_subset (fun e he => removeNode_edges_sub he) hacy,
        nodesClosed_removeNode hclosed cell⟩
    · exact ⟨hacy, hclosed⟩
  obtain ⟨hacy1, hclosed1⟩ := hg1
  unfold removeCell
  cases hl : lookup? (if hasNode g cell then removeNode g cell else g).cellWrites cell with
  | none =>
    simp only [hl]
    exact ⟨hacy1, hclosed1⟩
  | some oldWrites =>
    simp only [hl]
    exact ⟨hacy1, hclosed1⟩

/-! ## Reachable graph states -/

/-- Dependency-graph states reachable from the empty graph by any sequence
of `update_cell` calls (keeping the state left by a `CycleDetectedError`)
and `remove_cell` calls. -/
inductive ReachableGraph : DependencyGraph → Prop where
  | empty : ReachableGraph emptyGraph
  | update {g : DependencyGraph} (cell : Vtx) (reads writes : List Vtx) :
      ReachableGraph g → ReachableGraph (updateCell g cell reads writes).graph
  | remove {g : DependencyGraph} (cell : Vtx) :
      ReachableGraph g → ReachableGraph (removeCell g cell)

theorem reachableGraph_good {g : DependencyGraph} (h : ReachableGraph g) :
    GoodGraph g := by
  induction h with
  | empty => exact goodGraph_empty
  | update cell reads writes _ ih => exact updateCell_good ih cell reads writes
  | remove cell _ ih => exact removeCell_good ih cell

/-! ## Claim C1: state after a `CYCLE_DETECTED` upsert

Concrete scenario: cell `A` reads `w` and writes `x`; cell `B` reads `x`
and writes `y` (giving edge `A → B`); upserting cell `C` with reads `{y}`
and writes `{w}` is rejected with `CycleDetectedError`. -/

/-- Graph after registering cell `A` (reads `{w}`, writes `{x}`). -/
def c1GraphA : DependencyGraph := (updateCell emptyGraph "A" ["w"] ["x"]).graph

/-- Graph after additionally registering cell `B` (reads `{x}`, writes `{y}`). -/
def c1GraphAB : DependencyGraph := (updateCell c1GraphA "B" ["x"] ["y"]).graph

/-- C1: the spec demands that an upsert raising `CYCLE_DETECTED` leave the
DepGraph exactly as it was.  The code violates this: `update_cell` raises
from inside the simulation loop before removing the temporary edges it has
already added, so upserting `C` (reads `{y}`, writes `{w}`) onto the
`A → B` graph raises `CycleDetectedError` but leaves behind the node `C`
and the simulated edge `B → C` that were added while checking the first
candidate edge.  The pre-call graph has edges `[(A, B)]`; the post-raise
graph differs. -/
theorem C1_cycle_detected_leaves_residue :
    (updateCell c1GraphAB "C" ["y"] ["w"]).isCycle = true ∧
    (updateCell c1GraphAB "C" ["y"] ["w"]).graph ≠ c1GraphAB ∧
    ("B", "C") ∈ (updateCell c1GraphAB "C" ["y"] ["w"]).graph.edges ∧
    ("B", "C") ∉ c1GraphAB.edges ∧
    "C" ∈ (updateCell c1GraphAB "C" ["y"] ["w"]).graph.nodes ∧
    "C" ∉ c1GraphAB.nodes := by
  refine ⟨by decide, by decide, by decide, by decide, by decide, by decide⟩

/-! ## Flat backend data model (src/backend/models.py) -/

inductive CellType where
  | python
  | sql
deriving DecidableEq, Repr

inductive CellStatus where
  | idle
  | running
  | success
  | error
  | blocked
deriving DecidableEq, Repr

/-- `models.Cell` (runtime-relevant fields). -/
structure FlatCell where
  id : Vtx
  ctype : CellType
  code : String
  status : CellStatus
  stdout : String
  error : Option String
  reads : List Vtx
  writes : List Vtx
deriving DecidableEq, Repr

/-- `models.Graph`: forward and reverse adjacency (`cell_id → dependents`,
`cell_id → dependencies`), sets as lists. -/
structure FlatGraph where
  edges : List (Vtx × List Vtx)
  reverseEdges : List (Vtx × List Vtx)
deriving DecidableEq, Repr

def emptyFlatGraph : FlatGraph := { edges := [], reverseEdges := [] }

/-- Add `v` to the adjacency set of `k` (`setdefault(k, set()).add(v)`). -/
def addToAdj (m : List (Vtx × List Vtx)) (k v : Vtx) : List (Vtx × List Vtx) :=
  match lookup? m k with
  | some s => if v ∈ s then m else setKey m k (s ++ [v])
  | none => setKey m k [v]

/-- `Graph.add_edge(from_cell, to_cell)`. -/
def FlatGraph.addEdge (g : FlatGraph) (fromCell toCell : Vtx) : FlatGraph :=
  { edges := addToAdj g.edges fromCell toCell,
    reverseEdges := addToAdj g.reverseEdges toCell fromCell }

/-- The adjacency structure flattened to an edge-pair list (for relating the
flat graph to the path library). -/
def flatPairs (g : FlatGraph) : Edges :=
  g.edges.flatMap (fun p => p.2.map (fun t => (p.1, t)))

/-- `models.Notebook` (fields relevant to the verified operations). -/
structure FlatNotebook where
  cells : List FlatCell
  graph : FlatGraph
  revision : Nat
deriving DecidableEq, Repr

/-! ## Flat backend graph rebuild (src/backend/graph.py) -/

/-- The `writes_map` built by `rebuild_graph`: variable → list of cells that
write it, in notebook order. -/
def buildWritesMap (cells : List FlatCell) : List (Vtx × List Vtx) :=
  cells.foldl
    (fun m c =>
      c.writes.foldl
        (fun m v =>
          match lookup? m v with
          | some l => setKey m v (l ++ [c.id])
          | none => setKey m v [c.id])
        m)
    []

/-- `rebuild_graph(notebook)`: rebuild the dependency graph from scratch
from the cells' recorded reads/writes.  For every cell reading a variable,
an edge from every (other) writer of that variable is added.  There is no
cycle rejection here. -/
def rebuildGraph (cells : List FlatCell) : FlatGraph :=
  let wm := buildWritesMap cells
  cells.foldl
    (fun g c =>
      c.reads.foldl
        (fun g v =>
          ((lookup? wm v).getD []).foldl
            (fun g w => if w ≠ c.id then g.addEdge w c.id else g)
            g)
        g)
    emptyFlatGraph

/-- One step of `detect_cycle`'s recursive `dfs`, with explicit `path` and
`visited` state and fuel bounding the recursion depth.  Returns
`(found, path, visited)`; on `found = false` the path is restored. -/
def dfsCycleAux (g : FlatGraph) : Nat → Vtx → List Vtx × List Vtx →
    Bool × List Vtx × List Vtx
  | 0, _, (path, visited) => (false, path, visited)
  | fuel + 1, cell, (path, visited) =>
    if cell ∈ path then (true, path, visited)
    else if cell ∈ visited then (false, path, visited)
    else
      let visited1 := visited ++ [cell]
      let path1 := path ++ [cell]
      let res := ((lookup? g.edges cell).getD []).foldl
        (fun st c => if st.1 then st else dfsCycleAux g fuel c (st.2.1, st.2.2))
        (false, path1, visited1)
      if res.1 then res else (false, res.2.1.dropLast, res.2.2)

/-- Fuel bound for the DFS: more than the total size of the adjacency. -/
def flatGraphFuel (g : FlatGraph) : Nat :=
  g.edges.foldl (fun n p => n + p.2.length + 1) 1

/-- `detect_cycle(graph, start_cell)`: DFS from `start_cell`; returns the
path at the moment a cycle is found, else `none`. -/
def detectCycle (g : FlatGraph) (startCell : Vtx) : Option (List Vtx) :=
  let r := dfsCycleAux g (flatGraphFuel g) startCell ([], [])
  if r.1 then some r.2.1 else none

/-! ## Flat backend notebook operations (src/backend/notebook_operations.py) -/

inductive NbError where
  | revisionConflict (expected current : Nat)
  | cellNotFound (id : Vtx)
deriving DecidableEq, Repr

/-- Replace the cell with the given id (Python mutates the found object). -/
def updateCellInList (cells : List FlatCell) (cid : Vtx)
    (f : FlatCell → FlatCell) : List FlatCell :=
  cells.map (fun c => if c.id = cid then f c else c)

/-- `locked_update_cell(notebook, cell_id, code, expected_revision)`.

`extractPy` models `ast_parser.extract_dependencies` (Python-`ast` based,
returning `(reads, writes)`); `extractSql` models
`ast_parser.extract_sql_dependencies` (the `\x7b...\x7d` template scan).  The
`save_notebook` persistence call is external I/O and outside this model.
Returns the error (if raised) together with the notebook state. -/
def lockedUpdateCell (nb : FlatNotebook) (cellId : Vtx) (code : String)
    (expectedRevision : Option Nat)
    (extractPy : String → List Vtx × List Vtx)
    (extractSql : String → List Vtx) : Option NbError × FlatNotebook :=
  match expectedRevision with
  | some r =>
    if r ≠ nb.revision then (some (.revisionConflict r nb.revision), nb)
    else lockedUpdateCellBody nb cellId code extractPy extractSql
  | none => lockedUpdateCellBody nb cellId code extractPy extractSql
where
  lockedUpdateCellBody (nb : FlatNotebook) (cellId : Vtx) (code : String)
      (extractPy : String → List Vtx × List Vtx)
      (extractSql : String → List Vtx) : Option NbError × FlatNotebook :=
    match nb.cells.find? (fun c => c.id == cellId) with
    | none => (some (.cellNotFound cellId), nb)
    | some _ =>
      let cells1 := updateCellInList nb.cells cellId (fun c =>
        match c.ctype with
        | .python =>
          { c with code := code, status := .idle,
                   reads := (extractPy code).1, writes := (extractPy code).2 }
        | .sql =>
          { c with code := code, status := .idle, reads := extractSql code })
      let graph1 := rebuildGraph cells1
      let cells2 :=
        match detectCycle graph1 cellId with
        | some cycle =>
          updateCellInList cells1 cellId (fun c =>
            { c with status := .error,
                     error := some ("Circular dependency detected: " ++
                       String.intercalate " -> " cycle) })
        | none => cells1
      (none, { cells := cells2, graph := graph1, revision := nb.revision + 1 })

/-- `locked_create_cell(notebook, cell_type, code, index)`.  The fresh
`uuid4` id is supplied by the caller as `newId`. -/
def lockedCreateCell (nb : FlatNotebook) (newId : Vtx) (ctype : CellType)
    (code : String) (index : Option Nat)
    (extractPy : String → List Vtx × List Vtx)
    (extractSql : String → List Vtx) : FlatNotebook :=
  let base : FlatCell :=
    { id := newId, ctype := ctype, code := code, status := .idle,
      stdout := "", error := none, reads := [], writes := [] }
  let newCell :=
    match ctype with
    | .python => { base with reads := (extractPy code).1, writes := (extractPy code).2 }
    | .sql => { base with reads := extractSql code }
  let cells1 :=
    match index with
    | some i => if i ≤ nb.cells.length then nb.cells.insertIdx i newCell
                else nb.cells ++ [newCell]
    | none => nb.cells ++ [newCell]
  let graph1 := rebuildGraph cells1
  let cells2 :=
    match detectCycle graph1 newId with
    | some cycle =>
      updateCellInList cells1 newId (fun c =>
        { c with status := .error,
                 error := some ("Circular dependency detected: " ++
                   String.intercalate " -> " cycle) })
    | none => cells1
  { cells := cells2, graph := graph1, revision := nb.revision + 1 }

/-! ## Claim C3: acyclicity of reachable graph states -/

/-- Dependency-extraction results of `extract_dependencies` on the three
concrete cell sources used in the C3 scenario (what the Python-`ast`
extractor returns for them). -/
def c3ExtractPy : String → List Vtx × List Vtx := fun code =>
  if code = "x = 1" then ([], ["x"])
  else if code = "y = x + 1" then (["x"], ["y"])
  else if code = "x = y + 1" then (["y"], ["x"])
  else ([], [])

def c3ExtractSql : String → List Vtx := fun _ => []

/-- Notebook built from empty by creating `c1 : x = 1` and `c2 : y = x + 1`. -/
def c3Notebook : FlatNotebook :=
  lockedCreateCell
    (lockedCreateCell { cells := [], graph := emptyFlatGraph, revision := 0 }
      "c1" .python "x = 1" none c3ExtractPy c3ExtractSql)
    "c2" .python "y = x + 1" none c3ExtractPy c3ExtractSql

/-- Result of updating `c1` to `x = y + 1`, making `c1` and `c2` read each
other's writes. -/
def c3Updated : Option NbError × FlatNotebook :=
  lockedUpdateCell c3Notebook "c1" "x = y + 1" none c3ExtractPy c3ExtractSql

/-- C3 counterexample: the claim asserts every reachable dependency-graph
state is acyclic, including after an update that makes two cells read each
other's writes.  In the flat backend (`rebuild_graph` + `locked_update_cell`)
this fails: the update succeeds (no error is raised), the rebuilt
`notebook.graph` contains both `c1 → c2` and `c2 → c1` — a cycle — and
`detect_cycle` merely marks the cell `ERROR` while keeping the cyclic graph. -/
theorem C3_flat_update_creates_cycle :
    c3Updated.1 = none ∧
    ("c1", "c2") ∈ flatPairs c3Updated.2.graph ∧
    ("c2", "c1") ∈ flatPairs c3Updated.2.graph ∧
    ¬ Acyclic (flatPairs c3Updated.2.graph) ∧
    (c3Updated.2.cells.find? (fun c => c.id == "c1")).map FlatCell.status =
      some CellStatus.error := by
  refine ⟨by decide, by decide, by decide, ?_, by decide⟩
  intro h
  exact h "c1"
    (Relation.TransGen.tail
      (Relation.TransGen.single (by decide : EdgeRel (flatPairs c3Updated.2.graph) "c1" "c2"))
      (by decide : EdgeRel (flatPairs c3Updated.2.graph) "c2" "c1"))

/-- C3 (amended): in the app-core `DependencyGraph`, every state reachable
from the empty graph by any sequence of `update_cell` calls — including
calls that raise `CycleDetectedError`, whose residual state is kept — and
`remove_cell` calls is acyclic.  (The flat backend's `rebuild_graph` does
not enforce acyclicity; see the counterexample.) -/
theorem C3_core_graph_reachable_acyclic {g : DependencyGraph}
    (h : ReachableGraph g) : Acyclic g.edges :=
  (reachableGraph_good h).1

/-- Witness for C3: a concrete reachable state. -/
theorem C3_core_graph_reachable_acyclic_witness :
    Acyclic ((updateCell emptyGraph "A" ["w"] ["x"]).graph).edges :=
  C3_core_graph_reachable_acyclic
    (ReachableGraph.update "A" ["w"] ["x"] ReachableGraph.empty)

/-! ## Claim C7: revision behavior of `locked_update_cell` -/

theorem lockedUpdateCellBody_success_revision (nb : FlatNotebook) (cellId : Vtx)
    (code : String) (py : String → List Vtx × List Vtx) (sql : String → List Vtx) :
    (lockedUpdateCell.lockedUpdateCellBody nb cellId code py sql).2.revision =
        nb.revision + 1 ∨
    (lockedUpdateCell.lockedUpdateCellBody nb cellId code py sql) =
        (some (.cellNotFound cellId), nb) := by
  unfold lockedUpdateCell.lockedUpdateCellBody
  cases hf : nb.cells.find? (fun c => c.id == cellId) with
  | none => exact Or.inr rfl
  | some c => exact Or.inl rfl

/-- C7: `locked_update_cell` called with an `expected_revision` different
from the current revision fails with `REVISION_CONFLICT` and returns the
notebook exactly as it was (cells, code, graph and revision included); and
every call that returns success (no error) leaves the revision increased by
exactly one. -/
theorem C7_locked_update_cell_revision (nb : FlatNotebook) (cellId : Vtx)
    (code : String) (py : String → List Vtx × List Vtx)
    (sql : String → List Vtx) :
    (∀ r, r ≠ nb.revision →
      lockedUpdateCell nb cellId code (some r) py sql =
        (some (.revisionConflict r nb.revision), nb)) ∧
    (∀ expectedRevision,
      (lockedUpdateCell nb cellId code expectedRevision py sql).1 = none →
      (lockedUpdateCell nb cellId code expectedRevision py sql).2.revision =
        nb.revision + 1) := by
  constructor
  · intro r hr
    simp only [lockedUpdateCell, if_pos hr]
  · intro expectedRevision hnone
    rcases lockedUpdateCellBody_success_revision nb cellId code py sql with h | h
    · cases expectedRevision with
      | none =>
        simp only [lockedUpdateCell] at hnone ⊢
        exact h
      | some r =>
        simp only [lockedUpdateCell] at hnone ⊢
        by_cases hr : r ≠ nb.revision
        · rw [if_pos hr] at hnone
          exact absurd hnone (by simp)
        · rw [if_neg hr] at hnone ⊢
          exact h
    · cases expectedRevision with
      | none =>
        simp only [lockedUpdateCell] at hnone
        rw [h] at hnone
        exact absurd hnone (by simp)
      | some r =>
        simp only [lockedUpdateCell] at hnone ⊢
        by_cases hr : r ≠ nb.revision
        · rw [if_pos hr] at hnone
          exact absurd hnone (by simp)
        · rw [if_neg hr] at hnone
          rw [h] at hnone
          exact absurd hnone (by simp)

/-- Witness for C7 at a concrete notebook with revision 3: a conflicting
expected revision 5 fails and preserves the state; an unconditional update
returns success with revision 4. -/
theorem C7_locked_update_cell_revision_witness :
    (lockedUpdateCell
        { cells := [{ id := "c1", ctype := .python, code := "x = 1",
                      status := .idle, stdout := "", error := none,
                      reads := [], writes := ["x"] }],
          graph := emptyFlatGraph, revision := 3 }
        "c1" "x = 2" (some 5) c3ExtractPy c3ExtractSql).1 =
      some (.revisionConflict 5 3) ∧
    (lockedUpdateCell
        { cells := [{ id := "c1", ctype := .python, code := "x = 1",
                      status := .idle, stdout := "", error := none,
                      reads := [], writes := ["x"] }],
          graph := emptyFlatGraph, revision := 3 }
        "c1" "x = 2" none c3ExtractPy c3ExtractSql).2.revision = 4 := by
  constructor
  · rw [(C7_locked_update_cell_revision _ "c1" "x = 2" c3ExtractPy c3ExtractSql).1
      5 (by decide)]
  · exact (C7_locked_update_cell_revision _ "c1" "x = 2" c3ExtractPy
      c3ExtractSql).2 none (by decide)

/-! ## Topological sorting (models `nx.topological_sort` /
`graph.topological_sort`): repeatedly pick a vertex with no predecessor
among the remaining ones. -/

/-- Edges of the induced subgraph on `s` (`DiGraph.subgraph`). -/
def inducedEdges (E : Edges) (s : List Vtx) : Edges :=
  E.filter (fun e => e.1 ∈ s ∧ e.2 ∈ s)

theorem mem_inducedEdges {E : Edges} {s : List Vtx} {e : Vtx × Vtx} :
    e ∈ inducedEdges E s ↔ e ∈ E ∧ e.1 ∈ s ∧ e.2 ∈ s := by
  unfold inducedEdges
  rw [List.mem_filter]
  simp

/-- First remaining vertex with no predecessor among the remaining ones. -/
def pickSource (E : Edges) (rem : List Vtx) : Option Vtx :=
  rem.find? (fun v => ! rem.any (fun u => (u, v) ∈ E))

theorem pickSource_mem {E : Edges} {rem : List Vtx} {v : Vtx}
    (h : pickSource E rem = some v) : v ∈ rem :=
  List.mem_of_find?_eq_some h

theorem pickSource_no_pred {E : Edges} {rem : List Vtx} {v : Vtx}
    (h : pickSource E rem = some v) : ∀ u ∈ rem, (u, v) ∉ E := by
  have hp := List.find?_some h
  simp only [Bool.not_eq_true', List.any_eq_false, decide_eq_true_eq] at hp
  intro u hu
  exact hp u hu

/-- In a nonempty acyclic remainder some vertex has no remaining
predecessor (otherwise following predecessors forever would, by
pigeonhole, close a cycle). -/
theorem exists_topo_source {E : Edges} (hacy : Acyclic E) {rem : List Vtx}
    (hne : rem ≠ []) : ∃ v ∈ rem, ∀ u ∈ rem, (u, v) ∉ E := by
  by_contra hcon
  push_neg at hcon
  -- every remaining vertex has a remaining predecessor; choose one
  have hstep : ∀ v ∈ rem, ∃ u, rem.find? (fun u => decide ((u, v) ∈ E)) = some u := by
    intro v hv
    obtain ⟨u, hu, he⟩ := hcon v hv
    cases hfind : rem.find? (fun u => decide ((u, v) ∈ E)) with
    | some u0 => exact ⟨u0, rfl⟩
    | none =>
      have := List.find?_eq_none.mp hfind u hu
      simp only [decide_eq_true_eq] at this
      exact absurd he this
  set f : Vtx → Vtx :=
    fun v => (rem.find? (fun u => decide ((u, v) ∈ E))).getD v with hf
  have hfmem : ∀ v ∈ rem, f v ∈ rem ∧ (f v, v) ∈ E := by
    intro v hv
    obtain ⟨u, hu⟩ := hstep v hv
    constructor
    · rw [hf]; simp only [hu, Option.getD_some]
      exact List.mem_of_find?_eq_some hu
    · rw [hf]; simp only [hu, Option.getD_some]
      have := List.find?_some hu
      simpa using this
  obtain ⟨x0, hx0⟩ := List.exists_mem_of_ne_nil rem hne
  have hseq : ∀ i, f^[i] x0 ∈ rem := by
    intro i
    induction i with
    | zero => exact hx0
    | succ i ih =>
      rw [Function.iterate_succ_apply']
      exact (hfmem _ ih).1
  have hedge : ∀ i, (f^[i + 1] x0, f^[i] x0) ∈ E := by
    intro i
    rw [Function.iterate_succ_apply']
    exact (hfmem _ (hseq i)).2
  have hchain : ∀ i j, i < j → Relation.TransGen (EdgeRel E) (f^[j] x0) (f^[i] x0) := by
    intro i j hij
    induction j with
    | zero => omega
    | succ j ih =>
      rcases Nat.lt_succ_iff_lt_or_eq.mp hij with h | rfl
      · exact Relation.TransGen.head (hedge j) (ih h)
      · exact Relation.TransGen.single (hedge i)
  have hmaps : ∀ i ∈ Finset.range (rem.length + 1), f^[i] x0 ∈ rem.toFinset := by
    intro i _
    exact List.mem_toFinset.mpr (hseq i)
  have hcard : rem.toFinset.card < (Finset.range (rem.length + 1)).card := by
    rw [Finset.card_range]
    exact Nat.lt_succ_of_le (List.toFinset_card_le rem)
  obtain ⟨i, _, j, _, hne', heq⟩ :=
    Finset.exists_ne_map_eq_of_card_lt_of_maps_to hcard hmaps
  rcases Nat.lt_or_ge i j with hij | hij
  · have := hchain i j hij
    rw [heq] at this
    exact hacy _ this
  · have hji : j < i := by omega
    have := hchain j i hji
    rw [← heq] at this
    exact hacy _ this

/-- Selection-based topological sort (fuel = number of vertices).  Returns
`none` when no source exists (the `NetworkXError` / `ValueError` path). -/
def topoSortOpt (E : Edges) : Nat → List Vtx → Option (List Vtx)
  | _, [] => some []
  | 0, _ => none
  | fuel + 1, rem =>
    match pickSource E rem with
    | none => none
    | some v => (topoSortOpt E fuel (rem.erase v)).map (fun l => v :: l)

theorem topoSortOpt_perm {E : Edges} :
    ∀ (n : Nat) (rem l : List Vtx), topoSortOpt E n rem = some l → l.Perm rem := by
  intro n
  induction n with
  | zero =>
    intro rem l h
    cases rem with
    | nil => simp only [topoSortOpt] at h; cases h; exact List.Perm.refl []
    | cons a t => exact absurd h (by simp [topoSortOpt])
  | succ n ih =>
    intro rem l h
    cases rem with
    | nil => simp only [topoSortOpt] at h; cases h; exact List.Perm.refl []
    | cons a t =>
      simp only [topoSortOpt] at h
      cases hp : pickSource E (a :: t) with
      | none => rw [hp] at h; exact absurd h (by simp)
      | some v =>
        rw [hp] at h
        dsimp only [] at h
        cases hrec : topoSortOpt E n ((a :: t).erase v) with
        | none => rw [hrec] at h; simp at h
        | some l' =>
          rw [hrec] at h
          have h2 : v :: l' = l := by simpa using h
          subst h2
          exact ((ih _ l' hrec).cons v).trans
            (List.perm_cons_erase (pickSource_mem hp)).symm

theorem topoSortOpt_pairwise {E : Edges} :
    ∀ (n : Nat) (rem l : List Vtx), topoSortOpt E n rem = some l →
      l.Pairwise (fun a b => (b, a) ∉ E) := by
  intro n
  induction n with
  | zero =>
    intro rem l h
    cases rem with
    | nil => simp only [topoSortOpt] at h; cases h; exact List.Pairwise.nil
    | cons a t => exact absurd h (by simp [topoSortOpt])
  | succ n ih =>
    intro rem l h
    cases rem with
    | nil => simp only [topoSortOpt] at h; cases h; exact List.Pairwise.nil
    | cons a t =>
      simp only [topoSortOpt] at h
      cases hp : pickSource E (a :: t) with
      | none => rw [hp] at h; exact absurd h (by simp)
      | some v =>
        rw [hp] at h
        dsimp only [] at h
        cases hrec : topoSortOpt E n ((a :: t).erase v) with
        | none => rw [hrec] at h; simp at h
        | some l' =>
          rw [hrec] at h
          have h2 : v :: l' = l := by simpa using h
          subst h2
          refine List.Pairwise.cons ?_ (ih _ l' hrec)
          intro b hb
          have hbrem : b ∈ (a :: t).erase v :=
            (topoSortOpt_perm n _ l' hrec).mem_iff.mp hb
          exact pickSource_no_pred hp b (List.mem_of_mem_erase hbrem)

theorem topoSortOpt_complete {E : Edges} (hacy : Acyclic E) :
    ∀ (n : Nat) (rem : List Vtx), rem.length ≤ n →
      ∃ l, topoSortOpt E n rem = some l := by
  intro n
  induction n with
  | zero =>
    intro rem hlen
    rw [Nat.le_zero, List.length_eq_zero] at hlen
    subst hlen
    exact ⟨[], rfl⟩
  | succ n ih =>
    intro rem hlen
    cases hrem : rem with
    | nil => exact ⟨[], rfl⟩
    | cons a t =>
      obtain ⟨v, hv, hnp⟩ := exists_topo_source hacy (by simp [hrem] : rem ≠ [])
      rw [hrem] at hv hnp
      have hpick : ∃ v', pickSource E (a :: t) = some v' := by
        cases hp : pickSource E (a :: t) with
        | some v' => exact ⟨v', rfl⟩
        | none =>
          unfold pickSource at hp
          have := List.find?_eq_none.mp hp v hv
          simp only [Bool.not_eq_true', Bool.not_eq_false, List.any_eq_true,
            decide_eq_true_eq] at this
          obtain ⟨u, hu, he⟩ := this
          exact absurd he (hnp u hu)
      obtain ⟨v', hp⟩ := hpick
      have hlen' : ((a :: t).erase v').length ≤ n := by
        rw [List.length_erase_of_mem (pickSource_mem hp)]
        rw [hrem] at hlen
        simp only [List.length_cons] at hlen ⊢
        omega
      obtain ⟨l', hl'⟩ := ih _ hlen'
      exact ⟨v' :: l', by simp [topoSortOpt, hp, hl']⟩

/-! ## Ancestors and descendants (`nx.ancestors` / `nx.descendants`) -/

def swapEdges (E : Edges) : Edges := E.map (fun e => (e.2, e.1))

theorem mem_swapEdges {E : Edges} {a b : Vtx} :
    (a, b) ∈ swapEdges E ↔ (b, a) ∈ E := by
  unfold swapEdges
  rw [List.mem_map]
  constructor
  · rintro ⟨⟨x, y⟩, hxy, heq⟩
    simp only [Prod.mk.injEq] at heq
    obtain ⟨h1, h2⟩ := heq
    subst h1; subst h2
    exact hxy
  · intro h
    exact ⟨(b, a), h, rfl⟩

theorem reflTransGen_swapEdges {E : Edges} {a b : Vtx} :
    Relation.ReflTransGen (EdgeRel (swapEdges E)) a b ↔
      Relation.ReflTransGen (EdgeRel E) b a := by
  constructor
  · intro h
    exact Relation.reflTransGen_swap.mp
      (h.mono (fun x y hxy => mem_swapEdges.mp hxy))
  · intro h
    exact (Relation.reflTransGen_swap.mpr h).mono
      (fun x y hxy => mem_swapEdges.mpr hxy)

/-- `nx.descendants(G, c)`: vertices reachable from `c`, excluding `c`. -/
def descendantsOf (E : Edges) (c : Vtx) : List Vtx :=
  (reachableFrom E c).filter (fun x => x ≠ c)

/-- `nx.ancestors(G, c)`: vertices from which `c` is reachable, excluding
`c`. -/
def ancestorsOf (E : Edges) (c : Vtx) : List Vtx :=
  (reachableFrom (swapEdges E) c).filter (fun x => x ≠ c)

theorem mem_descendantsOf {E : Edges} {c x : Vtx} :
    x ∈ descendantsOf E c ↔ Relation.TransGen (EdgeRel E) c x ∧ x ≠ c := by
  unfold descendantsOf
  rw [List.mem_filter, mem_reachableFrom, Relation.reflTransGen_iff_eq_or_transGen]
  simp only [decide_eq_true_eq]
  constructor
  · rintro ⟨rfl | h, hne⟩
    · exact absurd rfl hne
    · exact ⟨h, hne⟩
  · rintro ⟨h, hne⟩
    exact ⟨Or.inr h, hne⟩

theorem mem_ancestorsOf {E : Edges} {c x : Vtx} :
    x ∈ ancestorsOf E c ↔ Relation.TransGen (EdgeRel E) x c ∧ x ≠ c := by
  unfold ancestorsOf
  rw [List.mem_filter, mem_reachableFrom]
  simp only [decide_eq_true_eq]
  rw [reflTransGen_swapEdges, Relation.reflTransGen_iff_eq_or_transGen]
  constructor
  · rintro ⟨rfl | h, hne⟩
    · exact absurd rfl hne
    · exact ⟨h, hne⟩
  · rintro ⟨h, hne⟩
    exact ⟨Or.inr h, hne⟩

theorem descendantsOf_nodup (E : Edges) (c : Vtx) : (descendantsOf E c).Nodup :=
  (reachIter_nodup (by simp)).filter _

theorem ancestorsOf_nodup (E : Edges) (c : Vtx) : (ancestorsOf E c).Nodup :=
  (reachIter_nodup (by simp)).filter _

/-! ## Kernel process (src/backend/app/kernel/process.py) -/

inductive NotifData where
  | status (s : CellStatus)
  | stdoutData (text : String)
  | outputData (mime : String)
  | metadata (reads writes : List Vtx)
  | errorData (errType msg : String)
deriving DecidableEq, Repr

/-- One `CellNotification` put on the kernel output queue. -/
structure Notif where
  cellId : Vtx
  data : NotifData
deriving DecidableEq, Repr

/-- Kernel-local state of `kernel_main`: the dependency graph, the
`cell_registry` (cell id → code and type) and the `has_run` map. -/
structure KernelState where
  graph : DependencyGraph
  cellRegistry : List (Vtx × String × CellType)
  hasRun : List (Vtx × Bool)
deriving Repr

def initialKernelState : KernelState :=
  { graph := emptyGraph, cellRegistry := [], hasRun := [] }

/-- `has_run.get(cell, False)`. -/
def hasRunB (m : List (Vtx × Bool)) (c : Vtx) : Bool :=
  (lookup? m c).getD false

/-- Handling of a `register_cell` request (process.py lines 36–111).  The
dependency extraction from the source code (Python `ast` / SQL template
scan) happens before the graph update; its result is passed in as
`reads`/`writes`.  On success the code is stored and `has_run` is
invalidated for the cell and its descendants; on `CycleDetectedError` the
registry and `has_run` are untouched and error/blocked notifications are
emitted. -/
def registerCell (ks : KernelState) (cellId : Vtx) (code : String)
    (ctype : CellType) (reads writes : List Vtx) : KernelState × List Notif :=
  match updateCell ks.graph cellId reads writes with
  | .ok g' =>
    let registry' := setKey ks.cellRegistry cellId (code, ctype)
    let hasRun1 := setKey ks.hasRun cellId false
    let hasRun2 :=
      if cellId ∈ g'.nodes then
        (descendantsOf g'.edges cellId).foldl (fun m d => setKey m d false) hasRun1
      else hasRun1
    ({ graph := g', cellRegistry := registry', hasRun := hasRun2 },
     [⟨cellId, .metadata reads writes⟩, ⟨cellId, .status .idle⟩])
  | .cycleDetected g' =>
    ({ graph := g', cellRegistry := ks.cellRegistry, hasRun := ks.hasRun },
     [⟨cellId, .errorData "CycleDetectedError" "Circular dependency detected"⟩,
      ⟨cellId, .status .blocked⟩])

/-- The affected set and order computed on `execute` (process.py lines
193–214): stale ancestors ∪ {cell} ∪ descendants, topologically sorted on
the induced subgraph; on sort failure just the requested cell. -/
def affectedSet (g : DependencyGraph) (hr : List (Vtx × Bool)) (cellId : Vtx) :
    List Vtx :=
  addAll
    (addAll
      (addAll [] ((ancestorsOf g.edges cellId).filter (fun a => ! hasRunB hr a)))
      [cellId])
    (descendantsOf g.edges cellId)

def cellsToRun (g : DependencyGraph) (hr : List (Vtx × Bool)) (cellId : Vtx) :
    List Vtx :=
  if cellId ∈ g.nodes then
    match topoSortOpt (inducedEdges g.edges (affectedSet g hr cellId))
        (affectedSet g hr cellId).length (affectedSet g hr cellId) with
    | some l => l
    | none => [cellId]
  else [cellId]

/-- Result of evaluating one cell (`PythonExecutor.execute` /
`SQLExecutor.execute`), abstracted as an oracle per cell. -/
structure ExecOutcome where
  success : Bool
  stdout : String
  outputs : List String
  error : Option String
deriving DecidableEq, Repr

/-- The per-cell body of the execute loop (process.py lines 218–314):
unregistered cells are skipped; otherwise status/stdout/output/error/
metadata notifications are emitted and `has_run` is set on success. -/
def execStep (registry : List (Vtx × String × CellType))
    (outcome : Vtx → ExecOutcome)
    (extractDeps : String → CellType → List Vtx × List Vtx)
    (st : List (Vtx × Bool) × List Vtx × List Notif) (cellId : Vtx) :
    List (Vtx × Bool) × List Vtx × List Notif :=
  let (hr, executed, notifs) := st
  match lookup? registry cellId with
  | none => (hr, executed, notifs)
  | some (code, ctype) =>
    let r := outcome cellId
    let deps := extractDeps code ctype
    let n1 := notifs ++ [⟨cellId, .status .running⟩]
    let n2 := if r.stdout ≠ "" then n1 ++ [⟨cellId, .stdoutData r.stdout⟩] else n1
    let n3 := n2 ++ r.outputs.map (fun m => (⟨cellId, .outputData m⟩ : Notif))
    let st' := if r.success then CellStatus.success else CellStatus.error
    let n4 := n3 ++ [⟨cellId, .status st'⟩]
    let hr' := if st' = CellStatus.success then setKey hr cellId true else hr
    let n5 :=
      match r.error with
      | some msg => n4 ++ [⟨cellId, .errorData "RuntimeError" msg⟩]
      | none => n4
    let n6 := n5 ++ [⟨cellId, .metadata deps.1 deps.2⟩]
    (hr', executed ++ [cellId], n6)

/-- Handling of an `execute` request (process.py lines 163–314): verify the
cell is registered (silently skipping cells that are graph residue of a
failed registration, erroring otherwise), compute `cells_to_run`, and run
the loop.  Returns the new state, the list of cells actually executed, and
the notifications. -/
def executeRequest (ks : KernelState) (cellId : Vtx)
    (outcome : Vtx → ExecOutcome)
    (extractDeps : String → CellType → List Vtx × List Vtx) :
    KernelState × List Vtx × List Notif :=
  match lookup? ks.cellRegistry cellId with
  | none =>
    if cellId ∈ ks.graph.nodes then (ks, [], [])
    else (ks, [], [⟨cellId, .errorData "CellNotRegistered"
      "Cells must be registered before execution"⟩])
  | some _ =>
    let toRun := cellsToRun ks.graph ks.hasRun cellId
    let res := toRun.foldl (execStep ks.cellRegistry outcome extractDeps)
      (ks.hasRun, [], [])
    ({ ks with hasRun := res.1 }, res.2.1, res.2.2)

/-! ## Claim C9: atomicity of kernel cell registration -/

/-- C9: when registration hits `CycleDetectedError`, the kernel's
`cell_registry` and `has_run` map are unchanged, and an `Execute` of the
cell — which was never successfully registered — executes no cell. -/
theorem C9_register_cycle_atomic (ks : KernelState) (cellId : Vtx)
    (code : String) (ctype : CellType) (reads writes : List Vtx)
    (hcycle : (updateCell ks.graph cellId reads writes).isCycle = true)
    (hunreg : lookup? ks.cellRegistry cellId = none) :
    (registerCell ks cellId code ctype reads writes).1.cellRegistry =
        ks.cellRegistry ∧
    (registerCell ks cellId code ctype reads writes).1.hasRun = ks.hasRun ∧
    ∀ (outcome : Vtx → ExecOutcome)
      (extractDeps : String → CellType → List Vtx × List Vtx),
      (executeRequest (registerCell ks cellId code ctype reads writes).1
        cellId outcome extractDeps).2.1 = [] := by
  cases hu : updateCell ks.graph cellId reads writes with
  | ok g' =>
    rw [hu] at hcycle
    exact absurd hcycle (by simp [UpdateResult.isCycle])
  | cycleDetected g' =>
    refine ⟨by simp [registerCell, hu], by simp [registerCell, hu], ?_⟩
    intro outcome extractDeps
    have hstate : (registerCell ks cellId code ctype reads writes).1 =
        { graph := g', cellRegistry := ks.cellRegistry, hasRun := ks.hasRun } := by
      simp [registerCell, hu]
    rw [hstate]
    simp only [executeRequest, hunreg]
    split <;> rfl

def c9Outcome : Vtx → ExecOutcome :=
  fun _ => { success := true, stdout := "", outputs := [], error := none }

def c9Extract : String → CellType → List Vtx × List Vtx := fun _ _ => ([], [])

/-- Kernel state after successfully registering `A` (reads `{w}`, writes
`{x}`) and `B` (reads `{x}`, writes `{y}`). -/
def c9Kernel : KernelState :=
  (registerCell
    ((registerCell initialKernelState "A" "x = w" .python ["w"] ["x"]).1)
    "B" "y = x" .python ["x"] ["y"]).1

/-- Witness for C9: registering `C` (reads `{y}`, writes `{w}`) on
`c9Kernel` raises `CycleDetectedError`; registry and `has_run` are
untouched and a subsequent `Execute C` runs nothing. -/
theorem C9_register_cycle_atomic_witness :
    (registerCell c9Kernel "C" "w = y" .python ["y"] ["w"]).1.cellRegistry =
        c9Kernel.cellRegistry ∧
    (registerCell c9Kernel "C" "w = y" .python ["y"] ["w"]).1.hasRun =
        c9Kernel.hasRun ∧
    (executeRequest (registerCell c9Kernel "C" "w = y" .python ["y"] ["w"]).1
      "C" c9Outcome c9Extract).2.1 = [] := by
  obtain ⟨h1, h2, h3⟩ := C9_register_cycle_atomic c9Kernel "C" "w = y" .python
    ["y"] ["w"] (by decide) (by decide)
  exact ⟨h1, h2, h3 c9Outcome c9Extract⟩

/-! ## Claim C2: failure propagation during one execute pass -/

/-- Kernel with `c1` writing `x` and `c2` reading `x` (edge `c1 → c2`). -/
def c2Kernel : KernelState :=
  (registerCell
    ((registerCell initialKernelState "c1" "x = 1/0" .python [] ["x"]).1)
    "c2" "y = x + 1" .python ["x"] ["y"]).1

/-- Executor oracle: `c1` fails at runtime, everything else succeeds. -/
def c2Outcome : Vtx → ExecOutcome := fun c =>
  if c = "c1" then
    { success := false, stdout := "",
      outputs := [], error := some "ZeroDivisionError: division by zero" }
  else { success := true, stdout := "", outputs := [], error := none }

/-- C2 counterexample: the claim says that after `c1` errors the kernel
does not execute the dependent `c2` and surfaces it as `BLOCKED`.  In fact
the kernel's execute loop runs every registered cell of `cells_to_run`
regardless of earlier failures: `c2` is executed (it gets a `running`
status) and no `blocked` status is ever emitted for it. -/
theorem C2_kernel_runs_dependents_after_error :
    (executeRequest c2Kernel "c1" c2Outcome c9Extract).2.1 = ["c1", "c2"] ∧
    (⟨"c2", NotifData.status CellStatus.blocked⟩ : Notif) ∉
      (executeRequest c2Kernel "c1" c2Outcome c9Extract).2.2 ∧
    (⟨"c2", NotifData.status CellStatus.running⟩ : Notif) ∈
      (executeRequest c2Kernel "c1" c2Outcome c9Extract).2.2 ∧
    (⟨"c1", NotifData.status CellStatus.error⟩ : Notif) ∈
      (executeRequest c2Kernel "c1" c2Outcome c9Extract).2.2 := by
  refine ⟨by decide, by decide, by decide, by decide⟩

/-! ## Flat scheduler drain pass (src/backend/scheduler.py lines 81–102) -/

/-- Result of `execute_python_cell` / `execute_sql_cell` as seen by the
drain loop, abstracted as an oracle per cell. -/
structure ExecResultF where
  status : CellStatus
  stdout : String
  error : Option String
deriving DecidableEq, Repr

/-- "Check if upstream dependency failed": some direct predecessor of the
cell (per `reverse_edges`) currently has status `ERROR`. -/
def hasFailedDependency (g : FlatGraph) (cells : List FlatCell) (cid : Vtx) :
    Bool :=
  match lookup? g.reverseEdges cid with
  | some deps =>
    deps.any (fun dep =>
      match cells.find? (fun c => c.id == dep) with
      | some dc => dc.status == CellStatus.error
      | none => false)
  | none => false

/-- One iteration of the `for cell_id in sorted_cells` loop: missing cells
are skipped; a cell with a failed direct dependency is marked `BLOCKED`
(status broadcast only) and not executed; otherwise `_execute_cell` runs it
and stores the result.  State: (cells, executed ids, broadcast statuses). -/
def drainStep (g : FlatGraph) (outcome : Vtx → ExecResultF)
    (st : List FlatCell × List Vtx × List (Vtx × CellStatus)) (cid : Vtx) :
    List FlatCell × List Vtx × List (Vtx × CellStatus) :=
  let (cells, executed, bcasts) := st
  match cells.find? (fun c => c.id == cid) with
  | none => (cells, executed, bcasts)
  | some _ =>
    if hasFailedDependency g cells cid then
      (updateCellInList cells cid (fun c => { c with status := .blocked }),
       executed, bcasts ++ [(cid, .blocked)])
    else
      (updateCellInList cells cid (fun c =>
         { c with status := (outcome cid).status,
                  stdout := (outcome cid).stdout,
                  error := (outcome cid).error }),
       executed ++ [cid],
       bcasts ++ [(cid, .running), (cid, (outcome cid).status)])

/-- The execute-in-order part of `ExecutionScheduler._drain_queue`. -/
def drainPass (g : FlatGraph) (outcome : Vtx → ExecResultF)
    (cells : List FlatCell) (sorted : List Vtx) :
    List FlatCell × List Vtx × List (Vtx × CellStatus) :=
  sorted.foldl (drainStep g outcome) (cells, [], [])

theorem find?_updateCellInList (cells : List FlatCell) (cid : Vtx)
    (f : FlatCell → FlatCell) (hf : ∀ c, (f c).id = c.id) (x : Vtx) :
    (updateCellInList cells cid f).find? (fun c => c.id == x) =
      (cells.find? (fun c => c.id == x)).map
        (fun c => if c.id = cid then f c else c) := by
  induction cells with
  | nil => rfl
  | cons c t ih =>
    have hid : (if c.id = cid then f c else c).id = c.id := by
      split
      · exact hf c
      · rfl
    simp only [updateCellInList, List.map_cons, List.find?]
    rw [hid]
    cases hx : (c.id == x) with
    | true => rfl
    | false => exact ih

/-- C2 (amended): failure masking lives in the scheduler's drain loop, not
the kernel.  During one drain pass, when a cell `u` finishes with status
`ERROR`, a later cell `v` having `u` as a direct predecessor (in
`reverse_edges`) is not executed: it is marked `BLOCKED` and only a status
broadcast (no upstream-failure note) is emitted, while a later cell `w`
with no failed predecessor still runs in order.  (The kernel itself
executes every registered cell of its pass regardless of failures; see the
counterexample.) -/
theorem C2_drain_pass_blocks_direct_dependents
    (g : FlatGraph) (outcome : Vtx → ExecResultF) (cells : List FlatCell)
    (u v w : Vtx) (cu cv cw : FlatCell)
    (huv : u ≠ v) (huw : u ≠ w) (hvw : v ≠ w)
    (hfu : cells.find? (fun c => c.id == u) = some cu)
    (hfv : cells.find? (fun c => c.id == v) = some cv)
    (hfw : cells.find? (fun c => c.id == w) = some cw)
    (hnofail : hasFailedDependency g cells u = false)
    (herr : (outcome u).status = .error)
    (hdep : u ∈ (lookup? g.reverseEdges v).getD [])
    (hwnodep : lookup? g.reverseEdges w = none) :
    (drainPass g outcome cells [u, v, w]).2.1 = [u, w] ∧
    ((drainPass g outcome cells [u, v, w]).1.find? (fun c => c.id == v)).map
        FlatCell.status = some CellStatus.blocked ∧
    (v, CellStatus.blocked) ∈ (drainPass g outcome cells [u, v, w]).2.2 ∧
    v ∉ (drainPass g outcome cells [u, v, w]).2.1 := by
  have hcuid : cu.id = u := by
    have := List.find?_some hfu; simpa using this
  have hcvid : cv.id = v := by
    have := List.find?_some hfv; simpa using this
  have hcwid : cw.id = w := by
    have := List.find?_some hfw; simpa using this
  -- the cell-updating functions preserve ids
  have hidpres : ∀ (f : FlatCell → FlatCell),
      (∀ c, (f c).id = c.id) → True := fun _ _ => trivial
  set f1 : FlatCell → FlatCell := fun c =>
    { c with status := (outcome u).status, stdout := (outcome u).stdout,
             error := (outcome u).error } with hf1
  set fb : FlatCell → FlatCell := fun c => { c with status := .blocked } with hfb
  set f3 : FlatCell → FlatCell := fun c =>
    { c with status := (outcome w).status, stdout := (outcome w).stdout,
             error := (outcome w).error } with hf3
  set cells1 := updateCellInList cells u f1 with hcells1
  set cells2 := updateCellInList cells1 v fb with hcells2
  -- step 1: u executes
  have h1 : drainStep g outcome (cells, [], []) u =
      (cells1, [u], [(u, .running), (u, (outcome u).status)]) := by
    simp only [drainStep, hfu, hnofail]
    rfl
  -- step 2 preliminaries
  have hfv1 : cells1.find? (fun c => c.id == v) = some cv := by
    rw [hcells1, find?_updateCellInList cells u f1 (fun c => rfl) v, hfv]
    simp only [Option.map_some']
    rw [if_neg (by rw [hcvid]; exact fun h => huv h.symm)]
  have hfu1 : cells1.find? (fun c => c.id == u) = some (f1 cu) := by
    rw [hcells1, find?_updateCellInList cells u f1 (fun c => rfl) u, hfu]
    simp only [Option.map_some']
    rw [if_pos hcuid]
  have hdeps : ∃ deps, lookup? g.reverseEdges v = some deps ∧ u ∈ deps := by
    cases hl : lookup? g.reverseEdges v with
    | none => rw [hl] at hdep; exact absurd hdep (List.not_mem_nil u)
    | some deps => rw [hl] at hdep; exact ⟨deps, rfl, hdep⟩
  have hfail2 : hasFailedDependency g cells1 v = true := by
    obtain ⟨deps, hl, hu'⟩ := hdeps
    unfold hasFailedDependency
    rw [hl]
    rw [List.any_eq_true]
    refine ⟨u, hu', ?_⟩
    rw [hfu1]
    show ((f1 cu).status == CellStatus.error) = true
    have hst : (f1 cu).status = CellStatus.error := herr
    rw [hst]
    rfl
  -- step 2: v is blocked
  have h2 : drainStep g outcome
      (cells1, [u], [(u, .running), (u, (outcome u).status)]) v =
      (cells2, [u],
        [(u, .running), (u, (outcome u).status), (v, .blocked)]) := by
    simp only [drainStep, hfv1, hfail2]
    rfl
  -- step 3 preliminaries
  have hfw1 : cells1.find? (fun c => c.id == w) = some cw := by
    rw [hcells1, find?_updateCellInList cells u f1 (fun c => rfl) w, hfw]
    simp only [Option.map_some']
    rw [if_neg (by rw [hcwid]; exact fun h => huw h.symm)]
  have hfw2 : cells2.find? (fun c => c.id == w) = some cw := by
    rw [hcells2, find?_updateCellInList cells1 v fb (fun c => rfl) w, hfw1]
    simp only [Option.map_some']
    rw [if_neg (by rw [hcwid]; exact fun h => hvw h.symm)]
  have hnofail3 : hasFailedDependency g cells2 w = false := by
    unfold hasFailedDependency
    rw [hwnodep]
  -- step 3: w executes
  have h3 : drainStep g outcome
      (cells2, [u], [(u, .running), (u, (outcome u).status), (v, .blocked)]) w =
      (updateCellInList cells2 w f3, [u, w],
        [(u, .running), (u, (outcome u).status), (v, .blocked),
         (w, .running), (w, (outcome w).status)]) := by
    simp only [drainStep, hfw2, hnofail3]
    rfl
  have hpass : drainPass g outcome cells [u, v, w] =
      (updateCellInList cells2 w f3, [u, w],
        [(u, .running), (u, (outcome u).status), (v, .blocked),
         (w, .running), (w, (outcome w).status)]) := by
    simp only [drainPass, List.foldl]
    rw [h1, h2, h3]
  refine ⟨by rw [hpass], ?_, by rw [hpass]; simp, ?_⟩
  · rw [hpass]
    have hfv2 : cells2.find? (fun c => c.id == v) = some (fb cv) := by
      rw [hcells2, find?_updateCellInList cells1 v fb (fun c => rfl) v, hfv1]
      simp only [Option.map_some']
      rw [if_pos hcvid]
    show ((updateCellInList cells2 w f3).find? (fun c => c.id == v)).map
      FlatCell.status = some CellStatus.blocked
    rw [find?_updateCellInList cells2 w f3 (fun c => rfl) v, hfv2]
    simp only [Option.map_some']
    have hne : ¬ ((fb cv).id = w) := by
      show ¬ (cv.id = w)
      rw [hcvid]
      exact hvw
    rw [if_neg hne]
  · rw [hpass]
    show v ∉ [u, w]
    intro hmem
    rcases List.mem_cons.mp hmem with h | h
    · exact huv h.symm
    · rcases List.mem_singleton.mp h with rfl
      exact hvw rfl

def c2wCell1 : FlatCell :=
  { id := "c1", ctype := .python, code := "x = 1/0", status := .idle,
    stdout := "", error := none, reads := [], writes := ["x"] }

def c2wCell2 : FlatCell :=
  { id := "c2", ctype := .python, code := "y = x + 1", status := .idle,
    stdout := "", error := none, reads := ["x"], writes := ["y"] }

def c2wCell3 : FlatCell :=
  { id := "c3", ctype := .python, code := "z = 1", status := .idle,
    stdout := "", error := none, reads := [], writes := ["z"] }

def c2wCells : List FlatCell := [c2wCell1, c2wCell2, c2wCell3]

def c2wGraph : FlatGraph := emptyFlatGraph.addEdge "c1" "c2"

def c2wOutcome : Vtx → ExecResultF := fun c =>
  if c = "c1" then
    { status := .error, stdout := "",
      error := some "ZeroDivisionError: division by zero" }
  else { status := .success, stdout := "", error := none }

/-- Witness for the amended C2 at a concrete notebook: `c1` fails, its
direct dependent `c2` is blocked and skipped, the independent `c3` runs. -/
theorem C2_drain_pass_blocks_direct_dependents_witness :
    (drainPass c2wGraph c2wOutcome c2wCells ["c1", "c2", "c3"]).2.1 =
      ["c1", "c3"] ∧
    ((drainPass c2wGraph c2wOutcome c2wCells ["c1", "c2", "c3"]).1.find?
        (fun c => c.id == "c2")).map FlatCell.status =
      some CellStatus.blocked ∧
    ("c2", CellStatus.blocked) ∈
      (drainPass c2wGraph c2wOutcome c2wCells ["c1", "c2", "c3"]).2.2 ∧
    "c2" ∉ (drainPass c2wGraph c2wOutcome c2wCells ["c1", "c2", "c3"]).2.1 :=
  C2_drain_pass_blocks_direct_dependents c2wGraph c2wOutcome c2wCells
    "c1" "c2" "c3" c2wCell1 c2wCell2 c2wCell3
    (by decide) (by decide) (by decide)
    (by decide) (by decide) (by decide)
    (by decide) (by decide) (by decide) (by decide)

/-! ## Claim C5: the set and order of cells run on Execute -/

theorem mem_affectedSet {g : DependencyGraph} {hr : List (Vtx × Bool)}
    {c x : Vtx} :
    x ∈ affectedSet g hr c ↔
      (Relation.TransGen (EdgeRel g.edges) x c ∧ x ≠ c ∧
        hasRunB hr x = false) ∨
      x = c ∨
      (Relation.TransGen (EdgeRel g.edges) c x ∧ x ≠ c) := by
  unfold affectedSet
  rw [mem_addAll, mem_addAll, mem_addAll]
  simp only [List.not_mem_nil, false_or, List.mem_singleton, List.mem_filter,
    Bool.not_eq_true', mem_ancestorsOf, mem_descendantsOf]
  constructor
  · rintro ((⟨⟨h1, h2⟩, h3⟩ | rfl) | ⟨h1, h2⟩)
    · exact Or.inl ⟨h1, h2, h3⟩
    · exact Or.inr (Or.inl rfl)
    · exact Or.inr (Or.inr ⟨h1, h2⟩)
  · rintro (⟨h1, h2, h3⟩ | rfl | ⟨h1, h2⟩)
    · exact Or.inl (Or.inl ⟨⟨h1, h2⟩, h3⟩)
    · exact Or.inl (Or.inr rfl)
    · exact Or.inr ⟨h1, h2⟩

theorem affectedSet_nodup (g : DependencyGraph) (hr : List (Vtx × Bool))
    (c : Vtx) : (affectedSet g hr c).Nodup :=
  addAll_nodup (addAll_nodup (addAll_nodup List.nodup_nil))

/-- The executed cells of the loop are exactly the registered cells of the
input list, in order. -/
theorem execStep_fold_executed (registry : List (Vtx × String × CellType))
    (outcome : Vtx → ExecOutcome)
    (extractDeps : String → CellType → List Vtx × List Vtx) :
    ∀ (l : List Vtx) (hr : List (Vtx × Bool)) (executed0 : List Vtx)
      (notifs0 : List Notif),
      (l.foldl (execStep registry outcome extractDeps)
          (hr, executed0, notifs0)).2.1 =
        executed0 ++ l.filter (fun cid => (lookup? registry cid).isSome) := by
  intro l
  induction l with
  | nil => intro hr e0 n0; simp
  | cons cid rest ih =>
    intro hr e0 n0
    simp only [List.foldl_cons, List.filter_cons]
    cases hlk : lookup? registry cid with
    | none =>
      have hstep : execStep registry outcome extractDeps (hr, e0, n0) cid =
          (hr, e0, n0) := by
        simp only [execStep, hlk]
      rw [hstep]
      simp only [hlk, Option.isSome_none, Bool.false_eq_true, if_false]
      exact ih hr e0 n0
    | some p =>
      obtain ⟨code, ctype⟩ := p
      have hstep : (execStep registry outcome extractDeps (hr, e0, n0) cid).2.1 =
          e0 ++ [cid] := by
        simp only [execStep, hlk]
      have hstep2 : ∃ hr' n', execStep registry outcome extractDeps
          (hr, e0, n0) cid = (hr', e0 ++ [cid], n') := by
        refine ⟨(execStep registry outcome extractDeps (hr, e0, n0) cid).1,
          (execStep registry outcome extractDeps (hr, e0, n0) cid).2.2, ?_⟩
        rw [Prod.ext_iff, Prod.ext_iff]
        exact ⟨rfl, hstep, rfl⟩
      obtain ⟨hr', n', hstep3⟩ := hstep2
      rw [hstep3]
      simp only [hlk, Option.isSome_some, if_true]
      rw [ih hr' (e0 ++ [cid]) n']
      simp

/-- C5 (amended): on `Execute` of a registered cell `c` (present in the
graph), the cells the kernel runs are exactly the *registered* cells among
the stale ancestors (`has_run` false), `c` itself and the descendants of
`c`; unregistered graph nodes — residue of failed registrations — are
silently skipped.  The executed list is in topological order: no edge of
the dependency graph goes from a later executed cell to an earlier one. -/
theorem C5_execute_runs_registered_affected
    (ks : KernelState) (c : Vtx) (outcome : Vtx → ExecOutcome)
    (extractDeps : String → CellType → List Vtx × List Vtx)
    (hacy : acyclicB ks.graph.edges = true)
    (hreg : (lookup? ks.cellRegistry c).isSome = true)
    (hnode : c ∈ ks.graph.nodes) :
    (∀ x, x ∈ (executeRequest ks c outcome extractDeps).2.1 ↔
      ((Relation.TransGen (EdgeRel ks.graph.edges) x c ∧
          hasRunB ks.hasRun x = false) ∨ x = c ∨
        Relation.TransGen (EdgeRel ks.graph.edges) c x) ∧
      (lookup? ks.cellRegistry x).isSome = true) ∧
    ((executeRequest ks c outcome extractDeps).2.1).Pairwise
      (fun a b => (b, a) ∉ ks.graph.edges) := by
  obtain ⟨q, hq⟩ := Option.isSome_iff_exists.mp hreg
  have hAcy : Acyclic ks.graph.edges := acyclicB_iff.mp hacy
  have hIndAcy : Acyclic (inducedEdges ks.graph.edges
      (affectedSet ks.graph ks.hasRun c)) :=
    acyclic_of_subset (fun e he => (mem_inducedEdges.mp he).1) hAcy
  obtain ⟨l, hl⟩ := topoSortOpt_complete hIndAcy
    (affectedSet ks.graph ks.hasRun c).length
    (affectedSet ks.graph ks.hasRun c) le_rfl
  have hctr : cellsToRun ks.graph ks.hasRun c = l := by
    simp only [cellsToRun, if_pos hnode, hl]
  have hexec : (executeRequest ks c outcome extractDeps).2.1 =
      l.filter (fun cid => (lookup? ks.cellRegistry cid).isSome) := by
    simp only [executeRequest, hq]
    rw [hctr, execStep_fold_executed]
    simp
  have hperm := topoSortOpt_perm _ _ _ hl
  constructor
  · intro x
    rw [hexec, List.mem_filter]
    constructor
    · rintro ⟨hx, hreg'⟩
      have hx' : x ∈ affectedSet ks.graph ks.hasRun c := hperm.mem_iff.mp hx
      rcases mem_affectedSet.mp hx' with ⟨h1, _, h3⟩ | rfl | ⟨h1, _⟩
      · exact ⟨Or.inl ⟨h1, h3⟩, hreg'⟩
      · exact ⟨Or.inr (Or.inl rfl), hreg'⟩
      · exact ⟨Or.inr (Or.inr h1), hreg'⟩
    · rintro ⟨h1 | rfl | h1, hreg'⟩
      · refine ⟨hperm.mem_iff.mpr (mem_affectedSet.mpr ?_), hreg'⟩
        refine Or.inl ⟨h1.1, ?_, h1.2⟩
        intro hxc
        subst hxc
        exact hAcy x h1.1
      · exact ⟨hperm.mem_iff.mpr (mem_affectedSet.mpr (Or.inr (Or.inl rfl))),
          hreg'⟩
      · refine ⟨hperm.mem_iff.mpr (mem_affectedSet.mpr ?_), hreg'⟩
        refine Or.inr (Or.inr ⟨h1, ?_⟩)
        intro hxc
        subst hxc
        exact hAcy x h1
  · rw [hexec]
    have hpw := topoSortOpt_pairwise _ _ _ hl
    have hpw2 := hpw.sublist
      (@List.filter_sublist Vtx (fun cid => (lookup? ks.cellRegistry cid).isSome) l)
    refine hpw2.imp_of_mem ?_
    intro a b ha hb hnind hfull
    apply hnind
    have ha' : a ∈ affectedSet ks.graph ks.hasRun c :=
      hperm.mem_iff.mp ((List.filter_sublist l).subset ha)
    have hb' : b ∈ affectedSet ks.graph ks.hasRun c :=
      hperm.mem_iff.mp ((List.filter_sublist l).subset hb)
    exact mem_inducedEdges.mpr ⟨hfull, hb', ha'⟩

/-- Witness for C5: on the kernel with `A → B` registered, executing `A`
runs `B` (a registered descendant) and the pass is topologically ordered. -/
theorem C5_execute_runs_registered_affected_witness :
    "B" ∈ (executeRequest c9Kernel "A" c9Outcome c9Extract).2.1 ∧
    ((executeRequest c9Kernel "A" c9Outcome c9Extract).2.1).Pairwise
      (fun a b => (b, a) ∉ c9Kernel.graph.edges) := by
  have h := C5_execute_runs_registered_affected c9Kernel "A" c9Outcome
    c9Extract (by decide) (by decide) (by decide)
  refine ⟨?_, h.2⟩
  refine (h.1 "B").mpr ⟨Or.inr (Or.inr ?_), by decide⟩
  exact Relation.TransGen.single (by decide)

/-- Kernel state after the failed registration of `C` on top of `A → B`:
the graph keeps residue node `C` and edge `B → C`, but `C` is not in the
registry. -/
def c5Kernel : KernelState :=
  (registerCell c9Kernel "C" "w = y" .python ["y"] ["w"]).1

/-- C5 counterexample: the claim says the kernel runs *exactly* the stale
ancestors, the cell and all its descendants.  After a failed registration
leaves the unregistered node `C` (with edge `B → C`) in the graph,
executing `A` runs only `A` and `B`: the descendant `C` is skipped by the
`cell_id not in cell_registry` check, so the executed set is a strict
subset of the claimed one. -/
theorem C5_unregistered_descendant_not_run :
    (executeRequest c5Kernel "A" c9Outcome c9Extract).2.1 = ["A", "B"] ∧
    "C" ∈ descendantsOf c5Kernel.graph.edges "A" ∧
    "C" ∉ (executeRequest c5Kernel "A" c9Outcome c9Extract).2.1 := by
  refine ⟨by decide, by decide, by decide⟩

/-! ## Key uniqueness of the writer index (for claim C4) -/

/-- A Python `dict` has no duplicate keys. -/
def NodupKeys {β : Type} (m : List (Vtx × β)) : Prop :=
  (m.map Prod.fst).Nodup

theorem keys_setKey {β : Type} (m : List (Vtx × β)) (k : Vtx) (v : β) :
    (setKey m k v).map Prod.fst =
      if k ∈ m.map Prod.fst then m.map Prod.fst else m.map Prod.fst ++ [k] := by
  induction m with
  | nil => simp [setKey]
  | cons p t ih =>
    by_cases h : p.1 = k
    · subst h
      simp [setKey]
    · simp only [setKey, if_neg h, List.map_cons, ih]
      have hne : ¬ (k = p.1) := fun hk => h hk.symm
      by_cases hk : k ∈ t.map Prod.fst
      · simp [hk, hne]
      · simp [hk, hne]

theorem nodupKeys_setKey {β : Type} {m : List (Vtx × β)} (h : NodupKeys m)
    (k : Vtx) (v : β) : NodupKeys (setKey m k v) := by
  unfold NodupKeys at h ⊢
  rw [keys_setKey]
  split
  · exact h
  · rename_i hk
    simp [List.nodup_append, h, hk]

theorem delKey_sublist {β : Type} (m : List (Vtx × β)) (k : Vtx) :
    List.Sublist (delKey m k) m := by
  induction m with
  | nil => exact List.Sublist.refl []
  | cons p t ih =>
    simp only [delKey]
    split
    · exact List.sublist_cons_self p t
    · exact ih.cons₂ p

theorem nodupKeys_delKey {β : Type} {m : List (Vtx × β)} (h : NodupKeys m)
    (k : Vtx) : NodupKeys (delKey m k) :=
  ((delKey_sublist m k).map Prod.fst).nodup h

theorem lookup?_eq_none_of_not_mem_keys {β : Type} {m : List (Vtx × β)}
    {k : Vtx} (h : k ∉ m.map Prod.fst) : lookup? m k = none := by
  induction m with
  | nil => rfl
  | cons p t ih =>
    simp only [List.map_cons, List.mem_cons, not_or] at h
    obtain ⟨h1, h2⟩ := h
    simp only [lookup?, List.find?]
    rw [beq_false_of_ne (fun he => h1 he.symm)]
    exact ih h2

theorem lookup?_delKey_self {β : Type} {m : List (Vtx × β)} (h : NodupKeys m)
    (k : Vtx) : lookup? (delKey m k) k = none := by
  induction m with
  | nil => rfl
  | cons p t ih =>
    simp only [delKey]
    by_cases hp : p.1 = k
    · rw [if_pos hp]
      subst hp
      unfold NodupKeys at h
      simp only [List.map_cons, List.nodup_cons] at h
      exact lookup?_eq_none_of_not_mem_keys h.1
    · rw [if_neg hp]
      simp only [lookup?, List.find?]
      rw [beq_false_of_ne hp]
      refine ih ?_
      unfold NodupKeys at h ⊢
      simp only [List.map_cons, List.nodup_cons] at h
      exact h.2

theorem lookup?_delKey_ne {β : Type} (m : List (Vtx × β)) {k k' : Vtx}
    (h : k' ≠ k) : lookup? (delKey m k) k' = lookup? m k' := by
  induction m with
  | nil => rfl
  | cons p t ih =>
    simp only [delKey]
    by_cases hp : p.1 = k
    · rw [if_pos hp]
      subst hp
      simp only [lookup?, List.find?]
      rw [beq_false_of_ne (fun he => h he.symm)]
    · rw [if_neg hp]
      simp only [lookup?, List.find?]
      cases hbeq : (p.1 == k')
      · exact ih
      · rfl

theorem nodupKeys_clearWriters {m : List (Vtx × Vtx)} (h : NodupKeys m)
    (cell : Vtx) (old : List Vtx) : NodupKeys (clearWriters m cell old) := by
  induction old generalizing m with
  | nil => exact h
  | cons v rest ih =>
    simp only [clearWriters, List.foldl_cons]
    split
    · exact ih (nodupKeys_delKey h v)
    · exact ih h

theorem lookup?_clearWriters {m : List (Vtx × Vtx)} (h : NodupKeys m)
    (cell : Vtx) (old : List Vtx) (n : Vtx) :
    lookup? (clearWriters m cell old) n = lookup? m n ∨
      lookup? (clearWriters m cell old) n = none := by
  induction old generalizing m with
  | nil => exact Or.inl rfl
  | cons v rest ih =>
    simp only [clearWriters, List.foldl_cons] at ih ⊢
    split
    · by_cases hn : n = v
      · subst hn
        rcases ih (nodupKeys_delKey h n) with h2 | h2
        · rw [h2, lookup?_delKey_self h n]
          exact Or.inr rfl
        · exact Or.inr h2
      · rcases ih (nodupKeys_delKey h v) with h2 | h2
        · rw [h2, lookup?_delKey_ne m hn]
          exact Or.inl rfl
        · exact Or.inr h2
    · exact ih h

theorem nodupKeys_registerWriters {m : List (Vtx × Vtx)} (h : NodupKeys m)
    (cell : Vtx) (w : List Vtx) : NodupKeys (registerWriters m cell w) := by
  induction w generalizing m with
  | nil => exact h
  | cons v rest ih =>
    simp only [registerWriters, List.foldl_cons] at ih ⊢
    exact ih (nodupKeys_setKey h v cell)

theorem lookup?_registerWriters_not_mem {m : List (Vtx × Vtx)} {cell n : Vtx}
    {w : List Vtx} (h : n ∉ w) :
    lookup? (registerWriters m cell w) n = lookup? m n := by
  induction w generalizing m with
  | nil => rfl
  | cons v rest ih =>
    simp only [List.mem_cons, not_or] at h
    obtain ⟨h1, h2⟩ := h
    simp only [registerWriters, List.foldl_cons] at ih ⊢
    rw [ih h2, lookup?_setKey_ne m cell h1]

theorem lookup?_registerWriters_mem {m : List (Vtx × Vtx)} {cell n : Vtx}
    {w : List Vtx} (h : n ∈ w) :
    lookup? (registerWriters m cell w) n = some cell := by
  induction w generalizing m with
  | nil => exact absurd h (List.not_mem_nil n)
  | cons v rest ih =>
    simp only [registerWriters, List.foldl_cons] at ih ⊢
    by_cases hrest : n ∈ rest
    · exact ih hrest
    · rcases List.mem_cons.mp h with rfl | hmem
      · have hstep : lookup? (registerWriters (setKey m n cell) cell rest) n =
            lookup? (setKey m n cell) n := lookup?_registerWriters_not_mem hrest
        simp only [registerWriters] at hstep
        rw [hstep, lookup?_setKey_self]
      · exact absurd hmem hrest

/-! ## Claim C4: last-writer-wins postconditions of `update_cell` -/

theorem addEdgeOnly_cellWrites (g : DependencyGraph) (a b : Vtx) :
    (addEdgeOnly g a b).cellWrites = g.cellWrites := by
  unfold addEdgeOnly; split <;> rfl

theorem addEdgeOnly_cellReads (g : DependencyGraph) (a b : Vtx) :
    (addEdgeOnly g a b).cellReads = g.cellReads := by
  unfold addEdgeOnly; split <;> rfl

theorem addNode_cellWrites (g : DependencyGraph) (c : Vtx) :
    (addNode g c).cellWrites = g.cellWrites := by
  unfold addNode; split <;> rfl

theorem addNode_cellReads (g : DependencyGraph) (c : Vtx) :
    (addNode g c).cellReads = g.cellReads := by
  unfold addNode; split <;> rfl

theorem addEdge_cellWrites (g : DependencyGraph) (a b : Vtx) :
    (addEdge g a b).cellWrites = g.cellWrites := by
  unfold addEdge
  rw [addEdgeOnly_cellWrites, addNode_cellWrites, addNode_cellWrites]

theorem addEdge_cellReads (g : DependencyGraph) (a b : Vtx) :
    (addEdge g a b).cellReads = g.cellReads := by
  unfold addEdge
  rw [addEdgeOnly_cellReads, addNode_cellReads, addNode_cellReads]

theorem simulateEdges_aux_fields :
    ∀ (l : Edges) (g : DependencyGraph) (temp : Edges) {g' : DependencyGraph}
      {temp' : Edges}, simulateEdges g l temp = .ok g' temp' →
      g'.varWriters = g.varWriters ∧ g'.cellWrites = g.cellWrites ∧
        g'.cellReads = g.cellReads := by
  intro l
  induction l with
  | nil =>
    intro g temp g' temp' h
    simp only [simulateEdges] at h
    cases h
    exact ⟨rfl, rfl, rfl⟩
  | cons p rest ih =>
    intro g temp g' temp' h
    obtain ⟨a, b⟩ := p
    simp only [simulateEdges] at h
    split at h
    · exact absurd h (by simp)
    · obtain ⟨h1, h2, h3⟩ := ih _ _ h
      rw [h1, h2, h3]
      exact ⟨addEdge_varWriters g a b, addEdge_cellWrites g a b,
        addEdge_cellReads g a b⟩

theorem mem_newParentEdges {g : DependencyGraph} {cell n w : Vtx}
    {reads : List Vtx} (hn : n ∈ reads)
    (hw : lookup? g.varWriters n = some w) (hwc : w ≠ cell) :
    (w, cell) ∈ newParentEdges g cell reads := by
  unfold newParentEdges
  rw [List.mem_filterMap]
  refine ⟨n, hn, ?_⟩
  rw [hw]
  simp [hwc]

theorem mem_newChildEdges {g : DependencyGraph} {cell q n : Vtx}
    {writes : List Vtx} (hq : q ∈ g.nodes) (hqc : q ≠ cell)
    (hn : n ∈ writes) (hr : n ∈ readsOf g q) :
    (cell, q) ∈ newChildEdges g cell writes := by
  unfold newChildEdges
  rw [List.mem_flatMap]
  refine ⟨n, hn, ?_⟩
  rw [List.mem_filterMap]
  refine ⟨q, hq, ?_⟩
  rw [if_neg hqc, if_pos hr]

theorem applyUpdate_varWriters (gSim : DependencyGraph) (temp : Edges)
    (cell : Vtx) (reads writes : List Vtx) (npe nce : Edges) :
    (applyUpdate gSim temp cell reads writes npe nce).varWriters =
      registerWriters
        (clearOldWriterIndex
          (if hasNode (removeTempEdges gSim temp) cell
           then removeNode (removeTempEdges gSim temp) cell
           else removeTempEdges gSim temp) cell).varWriters
        cell writes := by
  unfold applyUpdate
  rw [foldl_addEdge_varWriters, foldl_addEdge_varWriters, addNode_varWriters]

theorem applyUpdate_mem_of_mem_nce {gSim : DependencyGraph} {temp : Edges}
    {cell : Vtx} {reads writes : List Vtx} {npe nce : Edges} {e : Vtx × Vtx}
    (h : e ∈ nce) : e ∈ (applyUpdate gSim temp cell reads writes npe nce).edges := by
  unfold applyUpdate
  exact foldl_addEdge_mem_of_mem_list nce _ h

theorem applyUpdate_mem_of_mem_npe {gSim : DependencyGraph} {temp : Edges}
    {cell : Vtx} {reads writes : List Vtx} {npe nce : Edges} {e : Vtx × Vtx}
    (h : e ∈ npe) : e ∈ (applyUpdate gSim temp cell reads writes npe nce).edges := by
  unfold applyUpdate
  exact foldl_addEdge_edges_mono nce _ (foldl_addEdge_mem_of_mem_list npe _ h)

theorem nodupKeys_clearOldWriterIndex {g : DependencyGraph}
    (h : NodupKeys g.varWriters) (cell : Vtx) :
    NodupKeys (clearOldWriterIndex g cell).varWriters := by
  unfold clearOldWriterIndex
  split
  · exact nodupKeys_clearWriters h cell _
  · exact h

theorem lookup?_clearOldWriterIndex {g : DependencyGraph}
    (h : NodupKeys g.varWriters) (cell n : Vtx) :
    lookup? (clearOldWriterIndex g cell).varWriters n =
        lookup? g.varWriters n ∨
      lookup? (clearOldWriterIndex g cell).varWriters n = none := by
  unfold clearOldWriterIndex
  split
  · exact lookup?_clearWriters h cell _ n
  · exact Or.inl rfl

/-- C4 (amended): after a successful `upsert(c, reads, writes)`, the cell
`c` is the unique designated writer of every name it writes (the writer
index keeps at most one entry per name); every (other) registered cell `q`
reading a name written by `c` gains edge `c → q`; and every name `c` reads
whose designated writer `w ≠ c` yields edge `w → c`.  Edges from a
previously designated writer are *not* removed by the upsert (see the
counterexample): they persist until that writer or its reader is itself
re-upserted. -/
theorem C4_last_upserted_writer_wins
    (g : DependencyGraph) (cell : Vtx) (reads writes : List Vtx)
    (g' : DependencyGraph)
    (hok : updateCell g cell reads writes = .ok g')
    (hk : NodupKeys g.varWriters) :
    NodupKeys g'.varWriters ∧
    (∀ n ∈ writes, lookup? g'.varWriters n = some cell) ∧
    (∀ q ∈ g.nodes, q ≠ cell → ∀ n ∈ writes, n ∈ readsOf g q →
      (cell, q) ∈ g'.edges) ∧
    (∀ n ∈ reads, ∀ w, lookup? g'.varWriters n = some w → w ≠ cell →
      (w, cell) ∈ g'.edges) := by
  cases hsim : simulateEdges g
      (newParentEdges g cell reads ++ newChildEdges g cell writes) [] with
  | cycle gS =>
    simp only [updateCell, hsim] at hok
    exact absurd hok (by simp)
  | ok gS temp =>
    simp only [updateCell, hsim] at hok
    have hg' : g' = applyUpdate gS temp cell reads writes
        (newParentEdges g cell reads) (newChildEdges g cell writes) := by
      cases hok
      rfl
    obtain ⟨hvwS, hcwS, hcrS⟩ := simulateEdges_aux_fields _ _ _ hsim
    -- the intermediate graph whose writer index gets cleared
    set g2 := if hasNode (removeTempEdges gS temp) cell
        then removeNode (removeTempEdges gS temp) cell
        else removeTempEdges gS temp with hg2
    have hvw2 : g2.varWriters = g.varWriters := by
      rw [hg2]
      split
      · show (removeTempEdges gS temp).varWriters = g.varWriters
        rw [removeTempEdges_varWriters, hvwS]
      · rw [removeTempEdges_varWriters, hvwS]
    have hk2 : NodupKeys g2.varWriters := by rw [hvw2]; exact hk
    have hvw' : g'.varWriters =
        registerWriters (clearOldWriterIndex g2 cell).varWriters cell writes := by
      rw [hg', applyUpdate_varWriters]
    refine ⟨?_, ?_, ?_, ?_⟩
    · rw [hvw']
      exact nodupKeys_registerWriters (nodupKeys_clearOldWriterIndex hk2 cell)
        cell writes
    · intro n hn
      rw [hvw']
      exact lookup?_registerWriters_mem hn
    · intro q hq hqc n hn hr
      rw [hg']
      exact applyUpdate_mem_of_mem_nce (mem_newChildEdges hq hqc hn hr)
    · intro n hn w hw hwc
      by_cases hnw : n ∈ writes
      · rw [hvw', lookup?_registerWriters_mem hnw] at hw
        cases hw
        exact absurd rfl hwc
      · rw [hvw', lookup?_registerWriters_not_mem hnw] at hw
        rcases lookup?_clearOldWriterIndex hk2 cell n with hcl | hcl
        · rw [hcl, hvw2] at hw
          rw [hg']
          exact applyUpdate_mem_of_mem_npe (mem_newParentEdges hn hw hwc)
        · rw [hcl] at hw
          exact absurd hw (by simp)

/-- Graph with `A` writing `x` and `B` reading `x` (edge `A → B`). -/
def c4GraphAB : DependencyGraph :=
  (updateCell (updateCell emptyGraph "A" [] ["x"]).graph "B" ["x"] []).graph

/-- C4 counterexample: upserting `C` as a new writer of `x` redesignates
`x`'s writer to `C` and adds `C → B`, but the claim's final conjunct — that
the edge `A → B`, induced solely by `x` from the previously designated
writer `A`, is removed — is false: `update_cell` never touches edges
between other cells, so the stale edge `A → B` survives. -/
theorem C4_stale_writer_edge_persists :
    (updateCell c4GraphAB "C" [] ["x"]).isCycle = false ∧
    lookup? (updateCell c4GraphAB "C" [] ["x"]).graph.varWriters "x" =
      some "C" ∧
    ("C", "B") ∈ (updateCell c4GraphAB "C" [] ["x"]).graph.edges ∧
    ("A", "B") ∈ (updateCell c4GraphAB "C" [] ["x"]).graph.edges ∧
    writesOf (updateCell c4GraphAB "C" [] ["x"]).graph "A" = ["x"] ∧
    readsOf (updateCell c4GraphAB "C" [] ["x"]).graph "B" = ["x"] := by
  refine ⟨by decide, by decide, by decide, by decide, by decide, by decide⟩

/-- Witness for C4 at the concrete `A → B` graph: upserting `C` with
writes `{x}` makes `C` the designated writer and adds `C → B`. -/
theorem C4_last_upserted_writer_wins_witness :
    lookup? (updateCell c4GraphAB "C" [] ["x"]).graph.varWriters "x" =
        some "C" ∧
    ("C", "B") ∈ (updateCell c4GraphAB "C" [] ["x"]).graph.edges := by
  have hok : updateCell c4GraphAB "C" [] ["x"] =
      .ok (updateCell c4GraphAB "C" [] ["x"]).graph := by decide
  obtain ⟨_, h2, h3, _⟩ := C4_last_upserted_writer_wins c4GraphAB "C" [] ["x"]
    (updateCell c4GraphAB "C" [] ["x"]).graph hok
    (show ((c4GraphAB.varWriters.map Prod.fst).Nodup) by decide)
  exact ⟨h2 "x" (by decide), h3 "B" (by decide) (by decide) "x" (by decide)
    (by decide)⟩

/-! ## Claim C8: SQL result packaging and the 1,000-row soft cap

Both executors' success paths are modelled from the point where the
database driver has returned the records; the row payloads (already
serialized values) are an arbitrary type `α`. -/

/-- `result_data` of the flat `execute_sql_cell` (executor.py lines
92–110): a table dict with a `truncated` key, or the empty-result dict. -/
inductive FlatResultData (α : Type) where
  | table (columns : List String) (rows : List α) (truncated : String)
  | emptyResult (message : String)
deriving DecidableEq, Repr

/-- Flat-backend packaging: `MAX_ROWS = 1000`; above the cap the rows are
cut to the first 1000 and a visible notice is stored in `truncated`,
otherwise `truncated` is the empty string. -/
def flatSqlResultData {α : Type} (columns : List String) (rows : List α) :
    FlatResultData α :=
  if rows.length ≠ 0 then
    if rows.length > 1000 then
      .table columns (rows.take 1000)
        ("(Showing first 1000 of " ++ toString rows.length ++ " rows)")
    else .table columns rows ""
  else .emptyResult "Query returned no rows"

/-- The `data` dict built by `SQLExecutor.execute` (app/core/executor.py
lines 296–305): `type`, `columns`, `rows` — and no `truncated` key. -/
inductive AppTableData (α : Type) where
  | table (columns : List String) (rows : List α)
deriving DecidableEq, Repr

/-- App `ExecutionResult` of the SQL success path. -/
structure AppSqlResult (α : Type) where
  status : String
  stdout : String
  outputs : List (String × AppTableData α)
  error : Option String
deriving DecidableEq, Repr

/-- `SQLExecutor.execute` success path (app/core/executor.py lines
276–312), given the fetched and serialized records: all rows are emitted;
there is no row cap and no truncation notice. -/
def appSqlSuccess {α : Type} (logText : String) (columns : List String)
    (rows : List α) : AppSqlResult α :=
  if rows.length ≠ 0 then
    { status := "success",
      stdout := logText ++ "Returned " ++ toString rows.length ++ " row(s)\n",
      outputs := [("application/json", .table columns rows)],
      error := none }
  else
    { status := "success", stdout := logText ++ "Query returned 0 rows\n",
      outputs := [], error := none }

/-- C8 counterexample: for a 1,001-row result the app backend's
`SQLExecutor.execute` emits a table bundle containing all 1,001 rows and no
`truncated` field at all — the claimed cap and notice do not exist there. -/
theorem C8_app_sql_no_truncation :
    (appSqlSuccess "" ["id"] (List.replicate 1001 (0 : Nat))).outputs =
      [("application/json", .table ["id"] (List.replicate 1001 (0 : Nat)))] ∧
    (List.replicate 1001 (0 : Nat)).length > 1000 := by
  constructor
  · unfold appSqlSuccess
    rw [if_pos (by rw [List.length_replicate]; omega)]
  · rw [List.length_replicate]
    omega

/-- C8 (amended): only the flat backend's `execute_sql_cell` enforces the
1,000-row soft cap: with more rows than the cap the emitted table bundle
holds exactly the first 1,000 rows and a non-empty `truncated` notice; at
or below the cap all rows are included and the notice is empty.
(`SQLExecutor.execute` in the app backend emits all rows untruncated.) -/
theorem C8_flat_sql_truncation {α : Type} (columns : List String)
    (rows : List α) :
    (rows.length > 1000 →
      ∃ msg, flatSqlResultData columns rows =
          .table columns (rows.take 1000) msg ∧ msg ≠ "") ∧
    (rows.length ≤ 1000 → rows.length ≠ 0 →
      flatSqlResultData columns rows = .table columns rows "") := by
  constructor
  · intro hgt
    refine ⟨"(Showing first 1000 of " ++ toString rows.length ++ " rows)",
      ?_, ?_⟩
    · unfold flatSqlResultData
      rw [if_pos (by omega), if_pos hgt]
    · intro hemp
      have hdata := congrArg String.data hemp
      rw [String.data_append, String.data_append] at hdata
      have h0 : ("" : String).data = [] := rfl
      rw [h0] at hdata
      have h1 := (List.append_eq_nil.mp hdata).1
      have h2 := (List.append_eq_nil.mp h1).1
      exact absurd h2 (by decide)
  · intro hle hne
    unfold flatSqlResultData
    rw [if_pos hne, if_neg (by omega)]

/-- Witness for C8 at concrete sizes: 1,001 unit rows are cut to 1,000
with a non-empty notice; 3 rows pass through with an empty notice. -/
theorem C8_flat_sql_truncation_witness :
    (∃ msg, flatSqlResultData ["c"] (List.replicate 1001 (0 : Nat)) =
        .table ["c"] ((List.replicate 1001 (0 : Nat)).take 1000) msg ∧
        msg ≠ "") ∧
    flatSqlResultData ["c"] (List.replicate 3 (0 : Nat)) =
      .table ["c"] (List.replicate 3 (0 : Nat)) "" := by
  constructor
  · exact (C8_flat_sql_truncation ["c"] (List.replicate 1001 (0 : Nat))).1
      (by rw [List.length_replicate]; omega)
  · exact (C8_flat_sql_truncation ["c"] (List.replicate 3 (0 : Nat))).2
      (by rw [List.length_replicate]; omega)
      (by rw [List.length_replicate]; omega)

/-! ## Claim C10: error results carry the traceback but no stdout/outputs

The evaluation itself (CPython `exec`/`eval` inside the redirected-stdout
block) is abstracted as an oracle: it either completes with the captured
stdout and converted outputs, or raises after having written some partial
text to the stdout buffer, with a formatted traceback. -/

inductive PyEval where
  | completed (stdout : String) (outputs : List String)
  | raised (partialStdout : String) (tb : String)
deriving DecidableEq, Repr

/-- `ExecutionResult` of the app `PythonExecutor` (pydantic defaults:
`stdout = ''`, `outputs = []`, `error = None`). -/
structure PyExecResult where
  status : String
  stdout : String
  outputs : List String
  error : Option String
deriving DecidableEq, Repr

/-- `PythonExecutor.execute` (app/core/executor.py lines 31–84): on
success the buffer contents and converted outputs are returned; on an
exception the result is built as `ExecutionResult(status='error',
error=''.join(tb))` — the stdout buffer is never read, so the partial
output is discarded and `outputs` stays empty. -/
def pythonExecutorExecute : PyEval → PyExecResult
  | .completed out outs =>
    { status := "success", stdout := out, outputs := outs, error := none }
  | .raised _ tb =>
    { status := "error", stdout := "", outputs := [], error := some tb }

/-- `ExecutionResult` of the flat `execute_python_cell` (executor.py): the
constructor defaults are `stdout = ""`, `result = None`, `error = None`. -/
structure FlatPyResult where
  status : CellStatus
  stdout : String
  error : Option String
deriving DecidableEq, Repr

/-- `execute_python_cell` (executor.py lines 21–64): the generic exception
handler returns `ExecutionResult(status=ERROR, error=tb)` with the default
empty stdout; the captured buffer is read only on the success path. -/
def executePythonCellFlat : PyEval → FlatPyResult
  | .completed out _ =>
    { status := .success, stdout := out, error := none }
  | .raised _ tb =>
    { status := .error, stdout := "", error := some tb }

/-- The kernel's stdout emission (process.py lines 252–261): a `STDOUT`
notification is put on the queue only when `exec_result.stdout` is
non-empty. -/
def stdoutNotifs (cellId : Vtx) (r : PyExecResult) : List Notif :=
  if r.stdout ≠ "" then [⟨cellId, .stdoutData r.stdout⟩] else []

/-- C10: whatever an IMPERATIVE cell printed before raising, both
executors return an error result carrying the full traceback with empty
stdout and no outputs, and the kernel consequently emits no `STDOUT`
notification for it. -/
theorem C10_error_discards_stdout (partialOut tb : String) (cellId : Vtx) :
    pythonExecutorExecute (.raised partialOut tb) =
      { status := "error", stdout := "", outputs := [], error := some tb } ∧
    executePythonCellFlat (.raised partialOut tb) =
      { status := .error, stdout := "", error := some tb } ∧
    stdoutNotifs cellId (pythonExecutorExecute (.raised partialOut tb)) = [] := by
  refine ⟨rfl, rfl, ?_⟩
  unfold stdoutNotifs pythonExecutorExecute
  simp

/-! ## Claim C6: builtin filtering in dependency extraction

A fragment of the Python AST sufficient for the extraction visitors.  The
`parse` step (source text → AST) stays outside the model; the visitors are
translated from `app/core/ast_parser.py` (`DependencyExtractor`) and
`app/utils/ast_parser.py` (`VariableVisitor`). -/

mutual
inductive PyExpr where
  | nameLoad (id : String)
  | nameStore (id : String)
  | call (func : PyExpr) (args : List PyExpr)
  | binOp (left right : PyExpr)
  | constant
inductive PyStmt where
  | assign (targets : List PyExpr) (value : PyExpr)
  | augAssign (target : PyExpr) (value : PyExpr)
  | exprStmt (value : PyExpr)
  | functionDef (name : String)
  | asyncFunctionDef (name : String)
  | classDef (name : String)
  | importStmt (aliases : List (String × Option String))
  | importFrom (aliases : List (String × Option String))
end

/-- Visitor state: reads, writes, and the (single, module-level) scope of
names assigned so far.  Python sets are lists with duplicate-free
insertion. -/
structure VisitSt where
  reads : List String
  writes : List String
  scope : List String

def initVisitSt : VisitSt := ⟨[], [], []⟩

/-- `import a.b as c` binds `c`; `import a.b` binds `a`
(`alias.asname or alias.name.split('.')[0]`). -/
def importBoundName (nm : String) (asname : Option String) : String :=
  asname.getD ((nm.splitOn ".").headD nm)

mutual
/-- `DependencyExtractor` (app/core): `visit_Name` counts a Load as a read
unless the name was already module-assigned, counts every Store as a write
(the scope stack never grows since nested bodies are not visited). -/
def coreVisitExpr : PyExpr → VisitSt → VisitSt
  | .nameLoad id, st =>
    if id ∈ st.scope then st else { st with reads := addNew st.reads id }
  | .nameStore id, st =>
    { st with writes := addNew st.writes id, scope := addNew st.scope id }
  | .call f args, st => coreVisitExprList args (coreVisitExpr f st)
  | .binOp l r, st => coreVisitExpr r (coreVisitExpr l st)
  | .constant, st => st

def coreVisitExprList : List PyExpr → VisitSt → VisitSt
  | [], st => st
  | e :: es, st => coreVisitExprList es (coreVisitExpr e st)
end

/-- One statement of `DependencyExtractor`.  `visit_AugAssign` records the
Name target as both read and written, then `generic_visit` re-visits the
Store target and the value; function/class definitions record only the
name and do not descend; imports record the bound names. -/
def coreVisitStmt : PyStmt → VisitSt → VisitSt
  | .assign targets value, st =>
    coreVisitExpr value (coreVisitExprList targets st)
  | .augAssign target value, st =>
    let st1 :=
      match target with
      | .nameStore id =>
        { st with reads := addNew st.reads id,
                  writes := addNew st.writes id,
                  scope := addNew st.scope id }
      | _ => st
    coreVisitExpr value (coreVisitExpr target st1)
  | .exprStmt v, st => coreVisitExpr v st
  | .functionDef n, st => { st with writes := addNew st.writes n }
  | .asyncFunctionDef n, st => { st with writes := addNew st.writes n }
  | .classDef n, st => { st with writes := addNew st.writes n }
  | .importStmt aliases, st =>
    aliases.foldl
      (fun st p => { st with writes := addNew st.writes (importBoundName p.1 p.2) })
      st
  | .importFrom aliases, st =>
    aliases.foldl
      (fun st p =>
        if p.1 = "*" then st
        else { st with writes := addNew st.writes (p.2.getD p.1) })
      st

def coreVisitStmts (body : List PyStmt) (st : VisitSt) : VisitSt :=
  body.foldl (fun st s => coreVisitStmt s st) st

/-- `extract_python_dependencies` (app/core/ast_parser.py lines 85–102):
run the visitor and return the **raw** reads and writes — no builtin
filtering. -/
def extract_python_dependencies (body : List PyStmt) :
    List String × List String :=
  let st := coreVisitStmts body initVisitSt
  (st.reads, st.writes)

mutual
/-- `VariableVisitor` (app/utils): like the core visitor, with every Store
tracked in `local_scope`.  (It has no `visit_AugAssign` override, so an
augmented assignment is traversed generically.) -/
def utilsVisitExpr : PyExpr → VisitSt → VisitSt
  | .nameLoad id, st =>
    if id ∈ st.scope then st else { st with reads := addNew st.reads id }
  | .nameStore id, st =>
    { st with writes := addNew st.writes id, scope := addNew st.scope id }
  | .call f args, st => utilsVisitExprList args (utilsVisitExpr f st)
  | .binOp l r, st => utilsVisitExpr r (utilsVisitExpr l st)
  | .constant, st => st

def utilsVisitExprList : List PyExpr → VisitSt → VisitSt
  | [], st => st
  | e :: es, st => utilsVisitExprList es (utilsVisitExpr e st)
end

def utilsVisitStmt : PyStmt → VisitSt → VisitSt
  | .assign targets value, st =>
    utilsVisitExpr value (utilsVisitExprList targets st)
  | .augAssign target value, st =>
    utilsVisitExpr value (utilsVisitExpr target st)
  | .exprStmt v, st => utilsVisitExpr v st
  | .functionDef n, st => { st with writes := addNew st.writes n }
  | .asyncFunctionDef n, st => { st with writes := addNew st.writes n }
  | .classDef n, st => { st with writes := addNew st.writes n }
  | .importStmt aliases, st =>
    aliases.foldl
      (fun st p => { st with writes := addNew st.writes (importBoundName p.1 p.2) })
      st
  | .importFrom aliases, st =>
    aliases.foldl
      (fun st p =>
        if p.1 = "*" then st
        else { st with writes := addNew st.writes (p.2.getD p.1) })
      st

def utilsVisitStmts (body : List PyStmt) (st : VisitSt) : VisitSt :=
  body.foldl (fun st s => utilsVisitStmt s st) st

/-- `extract_dependencies` (app/utils/ast_parser.py lines 46–63): run the
visitor, then subtract `builtins = set(dir(__builtins__))` from the reads.
The value of that expression depends on how the module is loaded, so it is
a parameter here; `app/utils/ast_parser.py` is only ever imported (by
routes.py, notebook_operations.py and the tests), and in an imported
module `__builtins__` is the builtins *dict*, so at runtime the parameter
is the dict type's attribute names — see `dictAttrNames` — not the builtin
identifiers. -/
def extract_dependencies (builtins : List String) (body : List PyStmt) :
    List String × List String :=
  let st := utilsVisitStmts body initVisitSt
  (st.reads.filter (fun n => ¬ n ∈ builtins), st.writes)

/-- The runtime value of `set(dir(__builtins__))` inside the imported
module `app/utils/ast_parser.py`: there `__builtins__` is the builtins
dict, so `dir(__builtins__)` lists the attribute names of the dict type
(CPython 3.11).  No builtin function identifier (`print`, `len`, `range`,
…) is among them. -/
def dictAttrNames : List String :=
  ["__class__", "__class_getitem__", "__contains__", "__delattr__",
   "__delitem__", "__dir__", "__doc__", "__eq__", "__format__", "__ge__",
   "__getattribute__", "__getitem__", "__getstate__", "__gt__", "__hash__",
   "__init__", "__init_subclass__", "__ior__", "__iter__", "__le__",
   "__len__", "__lt__", "__ne__", "__new__", "__or__", "__reduce__",
   "__reduce_ex__", "__repr__", "__reversed__", "__ror__", "__setattr__",
   "__setitem__", "__sizeof__", "__str__", "__subclasshook__", "clear",
   "copy", "fromkeys", "get", "items", "keys", "pop", "popitem",
   "setdefault", "update", "values"]

/-- The AST of the source `print(x)`. -/
def printXAst : List PyStmt :=
  [.exprStmt (.call (.nameLoad "print") [.nameLoad "x"])]

/-- C6 counterexample: the core extractor (`extract_python_dependencies`,
the one the kernel uses) does **not** filter builtins — its own comment
says "Return raw reads and writes".  On the cell source `print(x)` the
builtin identifier `print` lands in the reads set. -/
theorem C6_core_extractor_keeps_builtins :
    "print" ∈ (extract_python_dependencies printXAst).1 ∧
    (extract_python_dependencies printXAst).1 = ["print", "x"] := by
  refine ⟨by decide, by decide⟩

/-- C6 (amended): neither extractor filters Python builtin identifiers
out of reads at runtime.  The core extractor returns the raw reads (see
the counterexample).  The utils extractor subtracts
`set(dir(__builtins__))`, but since the module is always imported that set
is the dict type's attribute names (`clear`, `copy`, `get`, …), so the
subtraction removes exactly the reads equal to a dict attribute name and
never a builtin such as `print`, `len` or `range`: on `print(x)` both
extractors report `print` as a read. -/
theorem C6_extractors_do_not_filter_builtins :
    (∀ (body : List PyStmt) (n : String),
      n ∈ (extract_dependencies dictAttrNames body).1 ↔
        n ∈ (utilsVisitStmts body initVisitSt).reads ∧ n ∉ dictAttrNames) ∧
    "print" ∉ dictAttrNames ∧ "len" ∉ dictAttrNames ∧
    "range" ∉ dictAttrNames ∧
    "print" ∈ (extract_dependencies dictAttrNames printXAst).1 ∧
    "print" ∈ (extract_python_dependencies printXAst).1 := by
  refine ⟨?_, by decide, by decide, by decide, by decide, by decide⟩
  intro body n
  unfold extract_dependencies
  rw [List.mem_filter]
  simp

/-- Witness for the amended C6: on `print(x)`, the read `x` (not a dict
attribute name) survives the runtime subtraction. -/
theorem C6_extractors_do_not_filter_builtins_witness :
    "x" ∈ (extract_dependencies dictAttrNames printXAst).1 :=
  (C6_extractors_do_not_filter_builtins.1 printXAst "x").mpr
    ⟨by decide, by decide⟩
